import Mathlib

set_option maxRecDepth 8000

/-! Verification development for the static-site builder and auditor
(`build.py`, `audit.py`).  Python strings are embedded as `List Char`,
filesystem paths as lists of path segments.  All definitions are
executable and are translated from the source files; definitions whose
name ends in `Spec` restate the natural-language specification and are
compared with the source-level definitions. -/

/-- Character list standing for a Python `str`. -/
abbrev Str := List Char

/-- View of a Lean string literal in the character-list representation. -/
def strOf (s : String) : Str := s.data

/-- Index of the last occurrence of `c` in the list, if any
(models Python `str.rfind`). -/
def lastIdxOf (c : Char) : Str → Option Nat
  | [] => none
  | a :: r =>
    match lastIdxOf c r with
    | some k => some (k + 1)
    | none => if a = c then some 0 else none

/-- Characters strictly before the first occurrence of `c`
(models `s.split(c)[0]`). -/
def takeUntil (c : Char) : Str → Str
  | [] => []
  | a :: r => if a = c then [] else a :: takeUntil c r

/-- Characters strictly after the first occurrence of `c`
(empty when `c` is absent, which coincides with Python's behaviour for
re-attaching empty query/fragment parts). -/
def afterFirst (c : Char) : Str → Str
  | [] => []
  | a :: r => if a = c then r else afterFirst c r

/-- Split on a separator character (models Python `str.split(c)`);
the result is always non-empty. -/
def splitOnChar (c : Char) : Str → List Str
  | [] => [[]]
  | a :: r =>
    match splitOnChar c r with
    | [] => [[]]
    | s :: ss => if a = c then [] :: s :: ss else (a :: s) :: ss

/-- Join with a separator character (models `c.join(parts)`). -/
def joinChar (c : Char) : List Str → Str
  | [] => []
  | [s] => s
  | s :: ss => s ++ c :: joinChar c ss

/-- Remove every trailing `/` (models Python `s.rstrip('/')`). -/
def rstripSlash (s : Str) : Str := (s.reverse.dropWhile (fun c => c = '/')).reverse

/-- ASCII whitespace, as recognised by Python `str.strip` and `\s`
(the embedding restricts to the ASCII range). -/
def isWsChar (c : Char) : Bool :=
  c = ' ' || c = '\t' || c = '\n' || c = '\r' || c = '\x0b' || c = '\x0c'

/-- Strip leading and trailing whitespace (models `str.strip()`). -/
def stripWsEnds (s : Str) : Str :=
  ((s.dropWhile isWsChar).reverse.dropWhile isWsChar).reverse

/-- Substring test (models Python `needle in hay`). -/
def subStr (nd : Str) : Str → Bool
  | [] => nd.isEmpty
  | a :: r => nd.isPrefixOf (a :: r) || subStr nd r

/-! ### Model of `urllib.parse.urljoin` as used by `clean_link`

`clean_link` only calls `urljoin(base, url)` with `base` a path of the
form `/` or `/dir/` and `url` not beginning with `/`, so the netloc
(`//host`) case of `urljoin` cannot arise and is not modelled. -/

/-- Valid characters of a URL scheme after the first one. -/
def isSchemeChar (c : Char) : Bool :=
  c.isAlphanum || c = '+' || c = '-' || c = '.'

/-- Helper for `hasScheme`: scan scheme characters up to a colon. -/
def hasSchemeAux : Str → Bool
  | [] => false
  | c :: r => if c = ':' then true else if isSchemeChar c then hasSchemeAux r else false

/-- Does the URL carry a scheme (`letter(alnum|+|-|.)* :` before any other
character), in which case `urljoin` with a scheme-less base returns it
unchanged? -/
def hasScheme : Str → Bool
  | [] => false
  | c :: r => if c.isAlpha then hasSchemeAux r else false

/-- Keep the first and last elements, drop empty middle segments
(CPython's `segments[1:-1] = filter(None, segments[1:-1])`). -/
def midFilterGo : List Str → List Str
  | [] => []
  | [a] => [a]
  | a :: rest => if a = [] then midFilterGo rest else a :: midFilterGo rest

/-- Apply the middle filter, keeping the head element untouched. -/
def midFilter : List Str → List Str
  | [] => []
  | a :: rest => a :: midFilterGo rest

/-- CPython's segment loop: `..` pops one collected segment (popping an
empty stack is silently ignored, so excess `..` can consume the root
marker), `.` is skipped, anything else is appended. -/
def pyResolve (acc : List Str) : List Str → List Str
  | [] => acc
  | s :: rest =>
    if s = strOf ".." then pyResolve acc.dropLast rest
    else if s = strOf "." then pyResolve acc rest
    else pyResolve (acc ++ [s]) rest

/-- Resolve path `u` against base path `base`, exactly as CPython's
`urljoin` does: the base keeps its trailing empty segment (dropped when
the base does not end in `/`), empty middle segments are filtered, dot
segments are resolved by `pyResolve`, a trailing `.`/`..` re-appends a
trailing slash, and an empty result becomes `/`. -/
def resolvePath (base u : Str) : Str :=
  let baseParts0 := splitOnChar '/' base
  let baseParts := if baseParts0.getLast? = some [] then baseParts0 else baseParts0.dropLast
  let segs := midFilter (baseParts ++ splitOnChar '/' u)
  let res0 := pyResolve [] segs
  let res := if segs.getLast? = some (strOf ".") || segs.getLast? = some (strOf "..")
             then res0 ++ [[]] else res0
  if joinChar '/' res = [] then ['/'] else joinChar '/' res

/-- Model of `urljoin(base, url)` for a path-only base ending in `/` and
a url that does not start with `/` (the only way `clean_link` calls it):
scheme-ful urls pass through; fragment, query and params are split off;
an empty path with empty params yields the base path; otherwise the path
is resolved; non-empty params/query/fragment parts are re-attached. -/
def urljoinModel (base u : Str) : Str :=
  if hasScheme u then u
  else
    let frag := afterFirst '#' u
    let p1 := takeUntil '#' u
    let q := afterFirst '?' p1
    let pq := takeUntil '?' p1
    let segsPq := splitOnChar '/' pq
    let lastSeg := (segsPq.getLast?).getD []
    let params := afterFirst ';' lastSeg
    let p2 := joinChar '/' (segsPq.dropLast ++ [takeUntil ';' lastSeg])
    let core := if p2 = [] && params = [] then base else resolvePath base p2
    core ++ (if params = [] then [] else ';' :: params)
      ++ (if q = [] then [] else '?' :: q)
      ++ (if frag = [] then [] else '#' :: frag)

/-! ### `SiteBuilder.clean_link` (build.py) -/

/-- Model of `os.path.dirname` for the relative POSIX paths produced by
`os.path.relpath(file, PROJECT_ROOT)`. -/
def dirnameStr (p : Str) : Str :=
  match lastIdxOf '/' p with
  | none => []
  | some k =>
    let h := p.take (k + 1)
    if h.all (fun c => c = '/') then h else rstripSlash h

/-- The `base_url_path` computed inside `clean_link`: `/` for a root-level
page, otherwise `/{base_dir}/`. -/
def baseUrlPath (p : Str) : Str :=
  let d := dirnameStr p
  if d = [] then ['/'] else '/' :: (d ++ ['/'])

/-- Prefixes treated as special protocols by `clean_link` (note that
`'http'` already covers `'https'`). -/
def specialPres : List Str :=
  [strOf "http", strOf "https", strOf "mailto:", strOf "tel:",
   strOf "javascript:", strOf "data:"]

/-- Model of `SiteBuilder.clean_link(url, current_file_path)`; the second
argument is the page path relative to the project root (the
`os.path.relpath` of the original). Ignores special links, resolves
relative hrefs against the page directory, strips a `.html` suffix, then
strips trailing slashes from a non-root result. -/
def cleanLink (u p : Str) : Str :=
  if u = [] then u
  else if specialPres.any (fun w => w.isPrefixOf u) then u
  else
    let r := if (strOf "/").isPrefixOf u then u else urljoinModel (baseUrlPath p) u
    let r2 := if (strOf ".html").isSuffixOf r then r.take (r.length - 5) else r
    if (strOf "/").isSuffixOf r2 && decide (1 < r2.length) then rstripSlash r2 else r2

/-- String-level wrapper of `cleanLink` for readable statements. -/
def cleanLinkS (u p : String) : String := ⟨cleanLink u.data p.data⟩

/-! ### Evergreen year cleaning (`step_2_scan_articles`, build.py)

The title is cleaned with `re.sub(r'\s*[\(\[\{]?202[0-9]年?[\)\]\}]?\s*', ' ', ...)`
and the description with `re.sub(r'\s*202[0-9]年?\s*', ' ', ...)`; both are then
whitespace-collapsed with `re.sub(r'\s+', ' ', ...)` and stripped.  The pattern
has no overlapping character classes, so Python's leftmost matching needs no
backtracking and is modelled by a deterministic scanner. -/

/-- Opening brackets accepted by the title pattern. -/
def isOpenBr (c : Char) : Bool := c = '(' || c = '[' || c = '{'

/-- Closing brackets accepted by the title pattern. -/
def isCloseBr (c : Char) : Bool := c = ')' || c = ']' || c = '}'

/-- Is this the start of a `202[0-9]` year literal? -/
def yearHead : Str → Bool
  | c1 :: c2 :: c3 :: c4 :: _ => c1 = '2' && c2 = '0' && c3 = '2' && c4.isDigit
  | _ => false


/-- Drop leading whitespace (one `\s*` element of the pattern). -/
def skipWs (s : Str) : Str := s.dropWhile isWsChar

/-- Optionally consume one opening bracket (title variant only). -/
def skipOpenBr (br : Bool) (s : Str) : Str :=
  if br then
    match s with
    | c :: r => if isOpenBr c then r else s
    | [] => s
  else s

/-- Consume the mandatory `202[0-9]` year digits, or fail. -/
def matchYearCore : Str → Option Str
  | c1 :: c2 :: c3 :: c4 :: r =>
    if c1 = '2' && c2 = '0' && c3 = '2' && c4.isDigit then some r else none
  | _ => none

/-- Optionally consume the `年` suffix. -/
def skipNian : Str → Str
  | [] => []
  | c :: r => if c = '年' then r else c :: r

/-- Optionally consume one closing bracket (title variant only). -/
def skipCloseBr (br : Bool) (s : Str) : Str :=
  if br then
    match s with
    | c :: r => if isCloseBr c then r else s
    | [] => s
  else s

/-- Match the whole year pattern at the current position; `br` selects the
title variant with optional surrounding brackets.  Returns the input rest
after the match.  The pattern's character classes are pairwise disjoint, so
this deterministic scan coincides with Python's regex matching. -/
def matchYear (br : Bool) (s : Str) : Option Str :=
  (matchYearCore (skipOpenBr br (skipWs s))).map
    (fun r => skipWs (skipCloseBr br (skipNian r)))

theorem dropWhile_length (p : Char → Bool) (s : Str) :
    (s.dropWhile p).length ≤ s.length := by
  induction s with
  | nil => simp [List.dropWhile]
  | cons a r ih =>
    rw [List.dropWhile_cons]
    by_cases ha : p a = true
    · simp only [ha, if_true]; exact Nat.le_succ_of_le ih
    · simp [ha]

theorem skipWs_length (s : Str) : (skipWs s).length ≤ s.length :=
  dropWhile_length isWsChar s

theorem skipOpenBr_length (br : Bool) (s : Str) :
    (skipOpenBr br s).length ≤ s.length := by
  rcases br
  · simp [skipOpenBr]
  · rcases s with _ | ⟨c, r⟩
    · simp [skipOpenBr]
    · by_cases hc : isOpenBr c = true <;> simp [skipOpenBr, hc]

theorem skipCloseBr_length (br : Bool) (s : Str) :
    (skipCloseBr br s).length ≤ s.length := by
  rcases br
  · simp [skipCloseBr]
  · rcases s with _ | ⟨c, r⟩
    · simp [skipCloseBr]
    · by_cases hc : isCloseBr c = true <;> simp [skipCloseBr, hc]

theorem skipNian_length (s : Str) : (skipNian s).length ≤ s.length := by
  rcases s with _ | ⟨c, r⟩
  · simp [skipNian]
  · by_cases hc : c = '年' <;> simp [skipNian, hc]

theorem matchYearCore_length {s r : Str} (h : matchYearCore s = some r) :
    r.length + 4 = s.length := by
  unfold matchYearCore at h
  rcases s with _ | ⟨c1, _ | ⟨c2, _ | ⟨c3, _ | ⟨c4, t⟩⟩⟩⟩ <;> simp_all

/-- A successful year match consumes at least the four year digits. -/
theorem matchYear_length {br : Bool} {s r : Str} (h : matchYear br s = some r) :
    r.length + 4 ≤ s.length := by
  unfold matchYear at h
  rcases hc : matchYearCore (skipOpenBr br (skipWs s)) with _ | r0
  · rw [hc] at h; simp at h
  · rw [hc] at h; simp at h
    have h1 := matchYearCore_length hc
    have h2 := skipOpenBr_length br (skipWs s)
    have h3 := skipWs_length s
    have h4 := skipNian_length r0
    have h5 := skipCloseBr_length br (skipNian r0)
    have h6 := skipWs_length (skipCloseBr br (skipNian r0))
    subst h
    omega

/-- Fuel-driven scanner for `re.sub(pattern, ' ', s)`: at each position
either the year pattern matches (replaced by one space, scanning resumes
after the match) or one character is copied.  Fuel `s.length` suffices. -/
def cleanYearsF (br : Bool) : Nat → Str → Str
  | 0, _ => []
  | _, [] => []
  | fuel + 1, c :: cs =>
    match matchYear br (c :: cs) with
    | some rest => ' ' :: cleanYearsF br fuel rest
    | none => c :: cleanYearsF br fuel cs

/-- Model of the year-removing `re.sub(..., ' ', s)` calls. -/
def cleanYears (br : Bool) (s : Str) : Str := cleanYearsF br s.length s

/-- Fuel-driven whitespace collapse; fuel `s.length` suffices. -/
def collapseWsF : Nat → Str → Str
  | 0, _ => []
  | _, [] => []
  | fuel + 1, c :: cs =>
    if isWsChar c then ' ' :: collapseWsF fuel (cs.dropWhile isWsChar)
    else c :: collapseWsF fuel cs

/-- Collapse whitespace runs to single spaces
(models `re.sub(r'\s+', ' ', s)`). -/
def collapseWs (s : Str) : Str := collapseWsF s.length s

/-- Model of the full title treatment in `step_2_scan_articles`: text
before the first `|`, stripped, years (with optional brackets) removed,
whitespace collapsed and stripped. -/
def scanTitleClean (raw : Str) : Str :=
  stripWsEnds (collapseWs (cleanYears true (stripWsEnds (takeUntil '|' raw))))

/-- Model of the description treatment in `step_2_scan_articles`: years
removed (without bracket handling), whitespace collapsed and stripped. -/
def scanDescClean (d : Str) : Str :=
  stripWsEnds (collapseWs (cleanYears false d))

/-- Does the string contain a four-character `202[0-9]` year token? -/
def hasYearTok : Str → Bool
  | [] => false
  | c :: r => yearHead (c :: r) || hasYearTok r

/-! ### Page processing on the build side (`process_page`, build.py)

A document is embedded as the data `process_page` actually inspects: its
path below the project root (as segments), the publish date found by the
scanner, the `href` values of its anchors, and the text contents of its
`application/ld+json` scripts (`none` when BeautifulSoup's `.string` is
`None`, e.g. for an empty script element). -/

/-- Lexicographic comparison of Python strings (code-point order). -/
def strLe : Str → Str → Bool
  | [], _ => true
  | _ :: _, [] => false
  | a :: as, b :: bs => if a = b then strLe as bs else decide (a < b)

/-- Stable insertion: `ok x y` says `x` may be placed before `y`. -/
def insBy (ok : α → α → Bool) (x : α) : List α → List α
  | [] => [x]
  | y :: ys => if ok x y then x :: y :: ys else y :: insBy ok x ys

/-- Stable sort by insertion; with a total preorder `ok` this computes the
same list as Python's stable `list.sort`. -/
def sortBy (ok : α → α → Bool) : List α → List α
  | [] => []
  | x :: xs => insBy ok x (sortBy ok xs)

/-- The href rewrite of the link pass: anchor hrefs on non-index pages are
made root-relative, all others go through `clean_link`. -/
def linkPassOne (isIdx : Bool) (p : Str) (h : Str) : Str :=
  if !isIdx && (strOf "#").isPrefixOf h then '/' :: h else cleanLink h p

/-- The link pass of `process_page` over all anchor hrefs of a page. -/
def linkPassHrefs (isIdx : Bool) (p : Str) (hs : List Str) : List Str :=
  hs.map (linkPassOne isIdx p)

/-- The name part of `os.path.splitext` applied to a file name: leading
dots never start an extension, otherwise the last dot splits. -/
def splitextStem (nm : Str) : Str :=
  let lead := (nm.takeWhile (fun c => c = '.')).length
  match lastIdxOf '.' (nm.drop lead) with
  | none => nm
  | some k => nm.take (lead + k)

/-- The sitemap URL of a page as computed in section F of `process_page`:
`/` for the root index, `/{dir}/` for other index files, otherwise
`/{path without extension}`. -/
def pageUrlSegs (relSegs : List Str) : Str :=
  match relSegs.getLast? with
  | none => []
  | some nm =>
    if nm = strOf "index.html" then
      if relSegs.length = 1 then strOf "/"
      else '/' :: (joinChar '/' relSegs.dropLast ++ ['/'])
    else '/' :: joinChar '/' (relSegs.dropLast ++ [splitextStem nm])

/-- The site domain constant `DOMAIN` of build.py. -/
def domainStr : Str := strOf "https://global-apple-id.top"

/-- A sitemap entry (`loc`, `lastmod`, `changefreq`, `priority`). -/
structure SEntry where
  loc : Str
  lastmod : Str
  changefreq : Str
  priority : Str
deriving DecidableEq

/-- A build-side document. -/
structure BDoc where
  relSegs : List Str
  date : Str
  hrefs : List Str
  ldJson : List (Option Str)
deriving DecidableEq

/-- Is this file one of the scanned blog articles (`blog/*.html` except
the blog index)?  `step_3` processes exactly these with `is_article=True`. -/
def isBlogArticle (d : BDoc) : Bool :=
  match d.relSegs with
  | [a, b] => (a == strOf "blog") && !(b == strOf "index.html")
  | _ => false

/-- Priority/frequency table and sitemap entry of section F of
`process_page`. -/
def entryFor (isArticle : Bool) (date : Str) (relSegs : List Str) : SEntry :=
  let u := pageUrlSegs relSegs
  let pf : Str × Str :=
    if u = strOf "/" then (strOf "1.0", strOf "daily")
    else if u = strOf "/blog/" then (strOf "0.8", strOf "weekly")
    else if isArticle then (strOf "0.8", strOf "monthly")
    else if u = strOf "/how-to-redeem-gift-cards" || u = strOf "/must-have-apps"
         || u = strOf "/how-to-change-apple-id-region" || u = strOf "/fix-account-disabled" then
      (strOf "0.7", strOf "monthly")
    else if u = strOf "/privacy-policy" || u = strOf "/terms-of-service" then
      (strOf "0.3", strOf "yearly")
    else (strOf "0.5", strOf "monthly")
  { loc := domainStr ++ u,
    lastmod := if isArticle then date else strOf "2026-01-31",
    changefreq := pf.2,
    priority := pf.1 }

/-- One `process_page` call.  The link pass always succeeds; on
`blog/index.html` the ItemList-schema scan evaluates
`'"ItemList"' in s.string` for every ld+json script and raises `TypeError`
when some `.string` is `None`; afterwards the page's sitemap entry is
collected.  Head reconstruction, layout sync and related-content
injection mutate the tree but raise nothing and produce no further
observable data for the properties below. -/
def processPageB (d : BDoc) : Except Unit (List Str × SEntry) :=
  let isIdx := d.relSegs = [strOf "index.html"]
  let relStr := joinChar '/' d.relSegs
  let cleaned := linkPassHrefs isIdx relStr d.hrefs
  if d.relSegs = [strOf "blog", strOf "index.html"] && d.ldJson.any (fun s => s.isNone) then
    Except.error ()
  else
    Except.ok (cleaned, entryFor (isBlogArticle d) d.date d.relSegs)

/-- The processing order of `step_3_process_all_pages`: the scanned
articles sorted by date descending first, then every other page. -/
def orderDocs (docs : List BDoc) : List BDoc :=
  sortBy (fun a b => strLe b.date a.date) (docs.filter isBlogArticle)
    ++ docs.filter (fun d => !isBlogArticle d)

/-- The loop of `step_3_process_all_pages`: no exception handler, so the
first failing page aborts the pass; the collected sitemap entries and the
abort flag are returned. -/
def step3Go : List BDoc → List SEntry × Bool
  | [] => ([], false)
  | d :: ds =>
    match processPageB d with
    | Except.error _ => ([], true)
    | Except.ok (_, e) =>
      let p := step3Go ds
      (e :: p.1, p.2)

/-- Sort key of `step_5_generate_sitemap`: root, blog index, rest. -/
def sortKeyOf (e : SEntry) : Nat :=
  if e.loc = domainStr ++ strOf "/" then 0
  else if e.loc = domainStr ++ strOf "/blog/" then 1 else 2

/-- The exclusion test applied before serialization in `step_5`. -/
def excludedLoc (l : Str) : Bool :=
  subStr (strOf "404") l || subStr (strOf "google") l
    || subStr (strOf "MasterTool") l || subStr (strOf "SEO_Dashboard") l

/-- The entries serialized by `step_5_generate_sitemap`: sorted by the
three-way key (Python's sort is stable), excluded locations dropped. -/
def step5Entries (es : List SEntry) : List SEntry :=
  (sortBy (fun a b => decide (sortKeyOf a ≤ sortKeyOf b)) es).filter
    (fun e => !excludedLoc e.loc)

/-- The sitemap produced by a whole build over the given document set. -/
def buildSitemap (docs : List BDoc) : List SEntry :=
  step5Entries (step3Go (orderDocs docs)).1

/-! ### The auditor (`audit.py`)

Absolute filesystem paths are embedded as segment lists (the path
`/a/b` is `[a, b]`); the filesystem itself is the list of paths that
exist as files.  An audited document is embedded as the data
`audit_file` actually inspects: its path below the audit root, its
`h1` count, whether it has an ld+json script, and its anchors
(href plus `rel` token list). -/

/-- Absolute-path `os.path.normpath` on segments: empty and `.` segments
vanish, `..` pops (and is dropped at the root). -/
def normAbs (acc : List Str) : List Str → List Str
  | [] => acc
  | s :: r =>
    if s = [] || s = strOf "." then normAbs acc r
    else if s = strOf ".." then normAbs acc.dropLast r
    else normAbs (acc ++ [s]) r

/-- `Path.with_suffix('.html')`: on the last segment, a dot at an inner
position (neither first nor last character) starts the suffix to be
replaced, otherwise `.html` is appended; an empty name raises
`ValueError`, modelled by `none`. -/
def withSuffixHtml (p : List Str) : Option (List Str) :=
  match p.getLast? with
  | none => none
  | some nm =>
    if nm = [] then none
    else
      let stem := match lastIdxOf '.' nm with
        | some k => if 0 < k ∧ k < nm.length - 1 then nm.take k else nm
        | none => nm
      some (p.dropLast ++ [stem ++ strOf ".html"])

/-- Configuration of `SiteAudit`: the detected base URL (`None` until
`auto_configure` finds one) and the absolute segments of the audit root. -/
structure AConfig where
  baseUrl : Option Str
  rootSegs : List Str
deriving DecidableEq

/-- Python truthiness of the `base_url` attribute. -/
def truthyBase : Option Str → Bool
  | none => false
  | some s => !s.isEmpty

/-- Result of `resolve_local_path`: early empty-href return `(None,
False)`, a raised `ValueError` from `with_suffix` on an empty name,
`(path, True)` or `(path, False)`. -/
inductive RRes where
  | rnone : RRes
  | rerr : RRes
  | rfound : List Str → RRes
  | rdead : List Str → RRes
deriving DecidableEq

/-- The href after fragment/query stripping and own-domain removal
(first half of `resolve_local_path`). -/
def cleanHrefOf (cfg : AConfig) (href : Str) : Str :=
  let clean0 := takeUntil '?' (takeUntil '#' href)
  match cfg.baseUrl with
  | some b =>
    if !b.isEmpty && b.isPrefixOf clean0 then
      let c := clean0.drop b.length
      if (strOf "/").isPrefixOf c then c else '/' :: c
    else clean0
  | none => clean0

/-- The normalized on-disk target of a non-empty cleaned href:
root-relative hrefs resolve against the audit root, others against the
referring file's directory (`cur` is the referring file's absolute
segments). -/
def targetOf (cfg : AConfig) (cur : List Str) (href : Str) : List Str :=
  let clean1 := cleanHrefOf cfg href
  if (strOf "/").isPrefixOf clean1 then
    normAbs [] (cfg.rootSegs ++ splitOnChar '/' (clean1.dropWhile (fun c => c = '/')))
  else
    normAbs [] (cur.dropLast ++ splitOnChar '/' clean1)

/-- Model of `SiteAudit.resolve_local_path(current_file, link_href)`.
`fs` is the set of existing files, `cur` the absolute segments of the
referring file.  Fragment and query are stripped; an own-domain prefix
is removed; root-relative hrefs resolve against the root, others against
the referring file's directory; then the three existence checks run in
order: exact file, `with_suffix('.html')`, `path/index.html`. -/
def resolveLocalPath (cfg : AConfig) (fs : List (List Str)) (cur : List Str)
    (href : Str) : RRes :=
  if takeUntil '?' (takeUntil '#' href) = [] then RRes.rnone
  else
    let target := targetOf cfg cur href
    if target ∈ fs then RRes.rfound target
    else
      match withSuffixHtml target with
      | none => RRes.rerr
      | some t2 =>
        if t2 ∈ fs then RRes.rfound t2
        else if (target ++ [strOf "index.html"]) ∈ fs then
          RRes.rfound (target ++ [strOf "index.html"])
        else RRes.rdead target

/-- Model of `SiteAudit.check_url_format`: up to three warnings, tagged
here by short markers in place of the formatted messages. -/
def checkUrlFormat (cfg : AConfig) (href : Str) : List Str :=
  (if !((strOf "/").isPrefixOf href) && !((strOf "http").isPrefixOf href)
   then [strOf "relative"] else [])
  ++ (match cfg.baseUrl with
      | some b => if !b.isEmpty && b.isPrefixOf href then [strOf "absolute"] else []
      | none => [])
  ++ (if (strOf ".html").isSuffixOf href then [strOf "htmlext"] else [])

/-- An issue record (`file`, `type`, `level`, `msg`). -/
structure Issue where
  file : Str
  typeCode : Str
  level : Str
  msg : Str
deriving DecidableEq

/-- The fixed penalty table of `SiteAudit.__init__`; `dict.get(t, 0)`
yields `0` for any type outside it. -/
def penaltyOf (t : Str) : Int :=
  if t = strOf "dead_link_local" then 10
  else if t = strOf "dead_link_external" then 5
  else if t = strOf "missing_h1" then 5
  else if t = strOf "bad_url_format" then 2
  else if t = strOf "missing_schema" then 2
  else if t = strOf "orphan_page" then 5
  else 0

/-- Mutable state of a `SiteAudit` run: the score, the append-only issue
log, the inbound-link multigraph as `(target, source)` edges, and the
set of external links in discovery order. -/
structure AState where
  score : Int
  issues : List Issue
  graph : List (Str × Str)
  externalLinks : List Str
deriving DecidableEq

/-- The state after `__init__`. -/
def initAState : AState :=
  { score := 100, issues := [], graph := [], externalLinks := [] }

/-- Model of `SiteAudit.add_issue`: append the issue, then deduct the
type's penalty, flooring the score at `0`. -/
def addIssue (st : AState) (file t lvl msg : Str) : AState :=
  { st with
    issues := st.issues ++ [{ file := file, typeCode := t, level := lvl, msg := msg }],
    score := max 0 (st.score - penaltyOf t) }

/-- `set.add` on the discovery-ordered external link list. -/
def addExternal (st : AState) (u : Str) : AState :=
  if u ∈ st.externalLinks then st
  else { st with externalLinks := st.externalLinks ++ [u] }

/-- An anchor element as inspected by the audit loop. -/
structure ALink where
  href : Str
  relToks : List Str
deriving DecidableEq

/-- The ignored URL prefixes of `SiteAudit.__init__`. -/
def ignorePres : List Str :=
  [strOf "/go/", strOf "/cdn-cgi/", strOf "javascript:", strOf "mailto:",
   strOf "#", strOf "tel:"]

/-- Processing of a single anchor inside `audit_file`'s link loop.  The
returned flag is `true` when an exception escapes (a `ValueError` from
`with_suffix`, or from `relative_to` when a resolved target lies outside
the audit root); the state already holds all mutations made before the
raise, as in Python. -/
def processHref (cfg : AConfig) (fs : List (List Str)) (st : AState)
    (srcRel : Str) (cur : List Str) (lk : ALink) : AState × Bool :=
  let href := stripWsEnds lk.href
  if ignorePres.any (fun w => w.isPrefixOf href) then (st, false)
  else if (strOf "http").isPrefixOf href
      && (!truthyBase cfg.baseUrl
          || !(((cfg.baseUrl).getD []).isPrefixOf href)) then
    let st1 := addExternal st href
    if !(strOf "noopener" ∈ lk.relToks) && !(strOf "noreferrer" ∈ lk.relToks) then
      (addIssue st1 srcRel (strOf "unsafe_external_link") (strOf "WARN")
        (strOf "missing noopener"), false)
    else (st1, false)
  else
    let st1 := (checkUrlFormat cfg href).foldl
      (fun s m => addIssue s srcRel (strOf "bad_url_format") (strOf "WARN") m) st
    match resolveLocalPath cfg fs cur href with
    | RRes.rerr => (st1, true)
    | RRes.rfound t =>
      if cfg.rootSegs.isPrefixOf t then
        ({ st1 with graph := st1.graph
            ++ [(joinChar '/' (t.drop cfg.rootSegs.length), srcRel)] }, false)
      else (st1, true)
    | RRes.rnone =>
      (addIssue st1 srcRel (strOf "dead_link_local") (strOf "ERROR")
        (strOf "dead link"), false)
    | RRes.rdead _ =>
      (addIssue st1 srcRel (strOf "dead_link_local") (strOf "ERROR")
        (strOf "dead link"), false)
deriving instance DecidableEq for Except

/-- An audited document as seen by `audit_file`. -/
structure ADoc where
  relSegs : List Str
  h1Count : Nat
  hasSchema : Bool
  links : List ALink
deriving DecidableEq

/-- The anchor loop of `audit_file`: sequential processing that stops at
the first raised exception, keeping all mutations so far. -/
def auditLinksGo (cfg : AConfig) (fs : List (List Str)) (srcRel : Str)
    (cur : List Str) : AState → List ALink → AState × Bool
  | st, [] => (st, false)
  | st, l :: ls =>
    match processHref cfg fs st srcRel cur l with
    | (st2, true) => (st2, true)
    | (st2, false) => auditLinksGo cfg fs srcRel cur st2 ls

/-- The body of `audit_file` inside its `try`: the `h1` count check, the
structured-data check (the breadcrumb check records nothing), then the
anchor loop. -/
def auditFileBody (cfg : AConfig) (fs : List (List Str)) (st : AState)
    (d : ADoc) : AState × Bool :=
  let rel := joinChar '/' d.relSegs
  let st1 := if d.h1Count ≠ 1 then
      addIssue st rel (strOf "missing_h1") (strOf "ERROR") (strOf "h1 count") else st
  let st2 := if !d.hasSchema then
      addIssue st1 rel (strOf "missing_schema") (strOf "WARN") (strOf "no schema") else st1
  auditLinksGo cfg fs rel (cfg.rootSegs ++ d.relSegs) st2 d.links

/-- `audit_file` with its `except` handler: an escaped exception is
logged to the console only, so the state reached so far is kept and the
run continues. -/
def auditFile (cfg : AConfig) (fs : List (List Str)) (st : AState) (d : ADoc) : AState :=
  (auditFileBody cfg fs st d).1

/-- The document loop of `SiteAudit.run`. -/
def auditRun (cfg : AConfig) (fs : List (List Str)) (st : AState) : List ADoc → AState
  | [] => st
  | d :: ds => auditRun cfg fs (auditFile cfg fs st d) ds

/-- Model of `analyze_graph`'s orphan check: every audited file other
than the root index with no inbound edge gets an `orphan_page` issue. -/
def analyzeGraph (files : List (List Str)) (st : AState) : AState :=
  files.foldl
    (fun s f =>
      let rel := joinChar '/' f
      if rel = strOf "index.html" then s
      else if (s.graph.filter (fun e => e.1 = rel)).isEmpty then
        addIssue s rel (strOf "orphan_page") (strOf "WARN") (strOf "orphan")
      else s)
    st

/-- Score updates of `check_external_links` over the probe outcomes: one
fixed deduction per dead external URL (the concurrent probing itself is
an external collaborator; result order does not affect the score). -/
def checkExternalScore (st : AState) (deadCount : Nat) : AState :=
  (List.range deadCount).foldl
    (fun s _ => { s with score := max 0 (s.score - penaltyOf (strOf "dead_link_external")) })
    st

/-! ### Score lemmas (claims C7 and C10) -/

theorem penaltyOf_nonneg (t : Str) : 0 ≤ penaltyOf t := by
  unfold penaltyOf; split_ifs <;> norm_num

theorem addIssue_score {st : AState} (f t lvl msg : Str) (h : 0 ≤ st.score) :
    (addIssue st f t lvl msg).score ≤ st.score ∧ 0 ≤ (addIssue st f t lvl msg).score := by
  have hp := penaltyOf_nonneg t
  simp only [addIssue]
  omega

theorem addExternal_score (st : AState) (u : Str) :
    (addExternal st u).score = st.score := by
  unfold addExternal; split <;> rfl

theorem fmtFold_score (msgs : List Str) (srcRel : Str) :
    ∀ st : AState, 0 ≤ st.score →
      (msgs.foldl (fun s m => addIssue s srcRel (strOf "bad_url_format") (strOf "WARN") m)
          st).score ≤ st.score ∧
      0 ≤ (msgs.foldl (fun s m => addIssue s srcRel (strOf "bad_url_format") (strOf "WARN") m)
          st).score := by
  induction msgs with
  | nil => intro st h; exact ⟨le_refl _, h⟩
  | cons m ms ih =>
    intro st h
    have h1 := @addIssue_score st srcRel (strOf "bad_url_format") (strOf "WARN") m h
    have h2 := ih (addIssue st srcRel (strOf "bad_url_format") (strOf "WARN") m) h1.2
    simp only [List.foldl_cons]
    exact ⟨le_trans h2.1 h1.1, h2.2⟩

theorem processHref_score (cfg : AConfig) (fs : List (List Str)) (st : AState)
    (srcRel : Str) (cur : List Str) (lk : ALink) (h : 0 ≤ st.score) :
    (processHref cfg fs st srcRel cur lk).1.score ≤ st.score ∧
    0 ≤ (processHref cfg fs st srcRel cur lk).1.score := by
  simp only [processHref]
  split
  · exact ⟨le_refl _, h⟩
  · split
    · have he := addExternal_score st (stripWsEnds lk.href)
      split
      · have := @addIssue_score (addExternal st (stripWsEnds lk.href)) srcRel
          (strOf "unsafe_external_link") (strOf "WARN") (strOf "missing noopener")
          (by rw [he]; exact h)
        rw [he] at this
        exact this
      · rw [he]; exact ⟨le_refl _, h⟩
    · have hf := fmtFold_score (checkUrlFormat cfg (stripWsEnds lk.href)) srcRel st h
      set st1 := (checkUrlFormat cfg (stripWsEnds lk.href)).foldl
        (fun s m => addIssue s srcRel (strOf "bad_url_format") (strOf "WARN") m) st with hst1
      split
      · exact hf
      · split
        · exact hf
        · exact hf
      · have := @addIssue_score st1 srcRel (strOf "dead_link_local") (strOf "ERROR")
          (strOf "dead link") hf.2
        exact ⟨le_trans this.1 hf.1, this.2⟩
      · have := @addIssue_score st1 srcRel (strOf "dead_link_local") (strOf "ERROR")
          (strOf "dead link") hf.2
        exact ⟨le_trans this.1 hf.1, this.2⟩

theorem auditLinksGo_score (cfg : AConfig) (fs : List (List Str)) (srcRel : Str)
    (cur : List Str) (links : List ALink) :
    ∀ st : AState, 0 ≤ st.score →
      (auditLinksGo cfg fs srcRel cur st links).1.score ≤ st.score ∧
      0 ≤ (auditLinksGo cfg fs srcRel cur st links).1.score := by
  induction links with
  | nil => intro st h; exact ⟨le_refl _, h⟩
  | cons l ls ih =>
    intro st h
    have h1 := processHref_score cfg fs st srcRel cur l h
    simp only [auditLinksGo]
    rcases hp : processHref cfg fs st srcRel cur l with ⟨st2, fl⟩
    rw [hp] at h1
    rcases fl
    · have h2 := ih st2 h1.2
      simp only []
      exact ⟨le_trans h2.1 h1.1, h2.2⟩
    · simp only []
      exact h1

theorem auditFile_score (cfg : AConfig) (fs : List (List Str)) (st : AState)
    (d : ADoc) (h : 0 ≤ st.score) :
    (auditFile cfg fs st d).score ≤ st.score ∧ 0 ≤ (auditFile cfg fs st d).score := by
  unfold auditFile auditFileBody
  set rel := joinChar '/' d.relSegs
  have step1 : ∀ st : AState, 0 ≤ st.score →
      (if d.h1Count ≠ 1 then
        addIssue st rel (strOf "missing_h1") (strOf "ERROR") (strOf "h1 count") else st).score
        ≤ st.score ∧
      0 ≤ (if d.h1Count ≠ 1 then
        addIssue st rel (strOf "missing_h1") (strOf "ERROR") (strOf "h1 count") else st).score := by
    intro st h
    split
    · exact addIssue_score rel (strOf "missing_h1") (strOf "ERROR") (strOf "h1 count") h
    · exact ⟨le_refl _, h⟩
  have step2 : ∀ st : AState, 0 ≤ st.score →
      (if !d.hasSchema then
        addIssue st rel (strOf "missing_schema") (strOf "WARN") (strOf "no schema") else st).score
        ≤ st.score ∧
      0 ≤ (if !d.hasSchema then
        addIssue st rel (strOf "missing_schema") (strOf "WARN") (strOf "no schema") else st).score := by
    intro st h
    split
    · exact addIssue_score rel (strOf "missing_schema") (strOf "WARN") (strOf "no schema") h
    · exact ⟨le_refl _, h⟩
  have h1 := step1 st h
  have h2 := step2 _ h1.2
  have h3 := auditLinksGo_score cfg fs rel (cfg.rootSegs ++ d.relSegs) d.links _ h2.2
  exact ⟨le_trans h3.1 (le_trans h2.1 h1.1), h3.2⟩

theorem auditRun_score (cfg : AConfig) (fs : List (List Str)) (docs : List ADoc) :
    ∀ st : AState, 0 ≤ st.score →
      (auditRun cfg fs st docs).score ≤ st.score ∧ 0 ≤ (auditRun cfg fs st docs).score := by
  induction docs with
  | nil => intro st h; exact ⟨le_refl _, h⟩
  | cons d ds ih =>
    intro st h
    have h1 := auditFile_score cfg fs st d h
    have h2 := ih (auditFile cfg fs st d) h1.2
    simp only [auditRun]
    exact ⟨le_trans h2.1 h1.1, h2.2⟩

theorem analyzeGraph_score (files : List (List Str)) :
    ∀ st : AState, 0 ≤ st.score →
      (analyzeGraph files st).score ≤ st.score ∧ 0 ≤ (analyzeGraph files st).score := by
  induction files with
  | nil => intro st h; exact ⟨le_refl _, h⟩
  | cons f fsr ih =>
    intro st h
    unfold analyzeGraph
    simp only [List.foldl_cons]
    have hstep : ∀ st : AState, 0 ≤ st.score →
        (if joinChar '/' f = strOf "index.html" then st
         else if (st.graph.filter (fun e => e.1 = joinChar '/' f)).isEmpty then
           addIssue st (joinChar '/' f) (strOf "orphan_page") (strOf "WARN") (strOf "orphan")
         else st).score ≤ st.score ∧
        0 ≤ (if joinChar '/' f = strOf "index.html" then st
         else if (st.graph.filter (fun e => e.1 = joinChar '/' f)).isEmpty then
           addIssue st (joinChar '/' f) (strOf "orphan_page") (strOf "WARN") (strOf "orphan")
         else st).score := by
      intro st h
      split
      · exact ⟨le_refl _, h⟩
      · split
        · exact addIssue_score _ _ _ _ h
        · exact ⟨le_refl _, h⟩
    have h1 := hstep st h
    have h2 := ih _ h1.2
    unfold analyzeGraph at h2
    exact ⟨le_trans h2.1 h1.1, h2.2⟩

theorem checkExternalScore_score (n : Nat) (st : AState) (h : 0 ≤ st.score) :
    (checkExternalScore st n).score ≤ st.score ∧ 0 ≤ (checkExternalScore st n).score := by
  unfold checkExternalScore
  have main : ∀ (l : List Nat) (st : AState), 0 ≤ st.score →
      (l.foldl (fun s _ =>
        { s with score := max 0 (s.score - penaltyOf (strOf "dead_link_external")) }) st).score
        ≤ st.score ∧
      0 ≤ (l.foldl (fun s _ =>
        { s with score := max 0 (s.score - penaltyOf (strOf "dead_link_external")) }) st).score := by
    intro l
    induction l with
    | nil => intro st h; exact ⟨le_refl _, h⟩
    | cons a as ih =>
      intro st h
      have hp := penaltyOf_nonneg (strOf "dead_link_external")
      have h1 : (0:Int) ≤ max 0 (st.score - penaltyOf (strOf "dead_link_external")) ∧
          max 0 (st.score - penaltyOf (strOf "dead_link_external")) ≤ st.score := by omega
      have h2 := ih { st with score := max 0 (st.score - penaltyOf (strOf "dead_link_external")) } h1.1
      simp only [List.foldl_cons]
      exact ⟨le_trans h2.1 h1.2, h2.2⟩
  exact main (List.range n) st h

/-- C7: throughout an audit pass the score starts at the fixed ceiling
100; each issue deduction (`add_issue`) and each external-dead-link
deduction never increases the score and never takes it below 0; and the
score at the end of a full pass (document loop, orphan analysis,
external checks) lies in `[0, 100]`. -/
theorem auditScore_bounds :
    initAState.score = 100 ∧
    (∀ (st : AState) (f t lvl msg : Str), 0 ≤ st.score →
      (addIssue st f t lvl msg).score ≤ st.score ∧ 0 ≤ (addIssue st f t lvl msg).score) ∧
    (∀ (cfg : AConfig) (fs : List (List Str)) (st : AState) (d : ADoc), 0 ≤ st.score →
      (auditFile cfg fs st d).score ≤ st.score ∧ 0 ≤ (auditFile cfg fs st d).score) ∧
    (∀ (st : AState) (n : Nat), 0 ≤ st.score →
      (checkExternalScore st n).score ≤ st.score ∧ 0 ≤ (checkExternalScore st n).score) ∧
    (∀ (cfg : AConfig) (fs : List (List Str)) (docs : List ADoc)
        (files : List (List Str)) (n : Nat),
      0 ≤ (checkExternalScore (analyzeGraph files (auditRun cfg fs initAState docs)) n).score ∧
      (checkExternalScore (analyzeGraph files (auditRun cfg fs initAState docs)) n).score ≤ 100) := by
  refine ⟨rfl, ?_, ?_, ?_, ?_⟩
  · intro st f t lvl msg h; exact addIssue_score f t lvl msg h
  · intro cfg fs st d h; exact auditFile_score cfg fs st d h
  · intro st n h; exact checkExternalScore_score n st h
  · intro cfg fs docs files n
    have h0 : (0:Int) ≤ initAState.score := by norm_num [initAState]
    have h1 := auditRun_score cfg fs docs initAState h0
    have h2 := analyzeGraph_score files _ h1.2
    have h3 := checkExternalScore_score n _ h2.2
    refine ⟨h3.2, ?_⟩
    have : initAState.score = 100 := rfl
    omega

/-- Witness for `auditScore_bounds` at a concrete state and issue. -/
theorem auditScore_bounds_witness :
    (addIssue initAState (strOf "f") (strOf "missing_h1") (strOf "ERROR")
        (strOf "m")).score ≤ initAState.score ∧
    0 ≤ (addIssue initAState (strOf "f") (strOf "missing_h1") (strOf "ERROR")
        (strOf "m")).score :=
  auditScore_bounds.2.1 initAState (strOf "f") (strOf "missing_h1") (strOf "ERROR")
    (strOf "m") (by decide)

/-- C10: `add_issue` with a type code outside the fixed penalty table
(such as `unsafe_external_link`) appends the issue to the log but
deducts nothing: the score is unchanged. -/
theorem addIssue_outside_table (st : AState) (f t lvl msg : Str)
    (hs : 0 ≤ st.score)
    (h1 : t ≠ strOf "dead_link_local") (h2 : t ≠ strOf "dead_link_external")
    (h3 : t ≠ strOf "missing_h1") (h4 : t ≠ strOf "bad_url_format")
    (h5 : t ≠ strOf "missing_schema") (h6 : t ≠ strOf "orphan_page") :
    (addIssue st f t lvl msg).score = st.score ∧
    (addIssue st f t lvl msg).issues
      = st.issues ++ [{ file := f, typeCode := t, level := lvl, msg := msg }] := by
  constructor
  · simp only [addIssue, penaltyOf, if_neg h1, if_neg h2, if_neg h3, if_neg h4,
      if_neg h5, if_neg h6]
    omega
  · rfl

/-- Witness for `addIssue_outside_table` at the `unsafe_external_link`
type code actually used by `audit_file`. -/
theorem addIssue_outside_table_witness :
    (addIssue initAState (strOf "f") (strOf "unsafe_external_link") (strOf "WARN")
        (strOf "m")).score = initAState.score ∧
    (addIssue initAState (strOf "f") (strOf "unsafe_external_link") (strOf "WARN")
        (strOf "m")).issues
      = initAState.issues
          ++ [⟨strOf "f", strOf "unsafe_external_link", strOf "WARN", strOf "m"⟩] :=
  addIssue_outside_table initAState (strOf "f") (strOf "unsafe_external_link")
    (strOf "WARN") (strOf "m") (by decide) (by decide) (by decide) (by decide)
    (by decide) (by decide) (by decide)

/-! ### Claim C5: priority order of the on-disk existence checks -/

theorem getLast?_mem_of_eq : ∀ {l : List Str} {a : Str}, l.getLast? = some a → a ∈ l
  | [x], a, h => by
    simp [List.getLast?] at h
    simp [h]
  | x :: y :: r, a, h => by
    rw [List.getLast?_cons_cons] at h
    exact List.mem_cons_of_mem x (getLast?_mem_of_eq h)

theorem normAbs_no_nil : ∀ (l : List Str) (acc : List Str), [] ∉ acc → [] ∉ normAbs acc l := by
  intro l
  induction l with
  | nil => intro acc h; simpa [normAbs] using h
  | cons s r ih =>
    intro acc h
    unfold normAbs
    split
    · exact ih acc h
    · split
      · exact ih acc.dropLast (fun hm => h (List.mem_of_mem_dropLast hm))
      · rename_i h1 h2
        refine ih (acc ++ [s]) ?_
        intro hm
        rcases List.mem_append.mp hm with hm | hm
        · exact h hm
        · simp at hm
          simp [hm] at h1

theorem targetOf_no_nil (cfg : AConfig) (cur : List Str) (href : Str) :
    [] ∉ targetOf cfg cur href := by
  simp only [targetOf]
  split
  · exact normAbs_no_nil _ [] (by simp)
  · exact normAbs_no_nil _ [] (by simp)

/-- On a non-empty target (whose segments are never empty, by
construction through `normAbs`), `with_suffix` cannot raise. -/
theorem withSuffixHtml_of_targetOf (cfg : AConfig) (cur : List Str) (href : Str)
    (ht : targetOf cfg cur href ≠ []) :
    ∃ t2, withSuffixHtml (targetOf cfg cur href) = some t2 := by
  rcases hg : (targetOf cfg cur href).getLast? with _ | nm
  · rw [List.getLast?_eq_none_iff] at hg
    exact absurd hg ht
  · have hmem := getLast?_mem_of_eq hg
    have hnm : nm ≠ [] := by
      intro he
      subst he
      exact targetOf_no_nil cfg cur href hmem
    unfold withSuffixHtml
    rw [hg]
    simp only [if_neg hnm]
    exact ⟨_, rfl⟩

/-- The candidate list of the amended claim: the exact target, the
target with its final suffix replaced by (or, when the name has no
suffix, extended with) `.html`, then `target/index.html`. -/
def candidatesOf (t : List Str) : List (List Str) :=
  [t] ++ (match withSuffixHtml t with | some t2 => [t2] | none => [])
    ++ [t ++ [strOf "index.html"]]

/-- C5 (amended): for every href that survives fragment/query stripping
and does not resolve to the filesystem root, `resolve_local_path`
returns the first existing candidate in the order: exact target, target
with its last suffix replaced by `.html` (`Path.with_suffix`, which
replaces an existing extension rather than appending), then
`target/index.html`; when none exists it returns the target with
`found = False`. -/
theorem resolveLocalPath_first_match (cfg : AConfig) (fs : List (List Str))
    (cur : List Str) (href : Str)
    (hne : takeUntil '?' (takeUntil '#' href) ≠ [])
    (ht : targetOf cfg cur href ≠ []) :
    resolveLocalPath cfg fs cur href =
      match (candidatesOf (targetOf cfg cur href)).find? (fun c => decide (c ∈ fs)) with
      | some c => RRes.rfound c
      | none => RRes.rdead (targetOf cfg cur href) := by
  obtain ⟨t2, h2⟩ := withSuffixHtml_of_targetOf cfg cur href ht
  unfold resolveLocalPath
  rw [if_neg hne]
  simp only [candidatesOf, h2, List.append_assoc, List.cons_append, List.nil_append,
    List.find?]
  by_cases hm : targetOf cfg cur href ∈ fs
  · simp [hm]
  · by_cases hm2 : t2 ∈ fs
    · simp [hm, hm2]
    · by_cases hm3 : targetOf cfg cur href ++ [strOf "index.html"] ∈ fs
      · simp [hm, hm2, hm3]
      · simp [hm, hm2, hm3]

/-- Witness for `resolveLocalPath_first_match`: the href `/blog/post`
located through the `.html`-suffix candidate. -/
theorem resolveLocalPath_first_match_witness :
    resolveLocalPath { baseUrl := none, rootSegs := [strOf "root"] }
        [[strOf "root", strOf "blog", strOf "post.html"]]
        [strOf "root", strOf "index.html"] (strOf "/blog/post") =
      match (candidatesOf (targetOf { baseUrl := none, rootSegs := [strOf "root"] }
          [strOf "root", strOf "index.html"] (strOf "/blog/post"))).find?
          (fun c => decide (c ∈ [[strOf "root", strOf "blog", strOf "post.html"]])) with
      | some c => RRes.rfound c
      | none => RRes.rdead (targetOf { baseUrl := none, rootSegs := [strOf "root"] }
          [strOf "root", strOf "index.html"] (strOf "/blog/post")) :=
  resolveLocalPath_first_match { baseUrl := none, rootSegs := [strOf "root"] }
    [[strOf "root", strOf "blog", strOf "post.html"]]
    [strOf "root", strOf "index.html"] (strOf "/blog/post") (by decide) (by decide)

/-- C5 counterexample: the second existence check is `with_suffix`, which
replaces an existing extension instead of appending `.html`: for the
href `/notes.txt` with only `notes.html` on disk, none of the claim's
candidates (`notes.txt`, `notes.txt.html`, `notes.txt/index.html`)
exists — so the claim reports the link dead — yet the code finds
`notes.html` and returns `found = True`. -/
theorem resolveLocalPath_append_counterexample :
    resolveLocalPath { baseUrl := none, rootSegs := [strOf "root"] }
        [[strOf "root", strOf "notes.html"]]
        [strOf "root", strOf "index.html"] (strOf "/notes.txt")
      = RRes.rfound [strOf "root", strOf "notes.html"] ∧
    [strOf "root", strOf "notes.txt"] ∉ [[strOf "root", strOf "notes.html"]] ∧
    [strOf "root", strOf "notes.txt.html"] ∉ [[strOf "root", strOf "notes.html"]] ∧
    [strOf "root", strOf "notes.txt", strOf "index.html"]
      ∉ [[strOf "root", strOf "notes.html"]] := by decide

/-! ### Claim C6: hrefs that are empty after stripping -/

theorem takeUntil_eq_nil_cases {c : Char} {s : Str} (h : takeUntil c s = []) :
    s = [] ∨ ∃ r, s = c :: r := by
  rcases s with _ | ⟨a, r⟩
  · exact Or.inl rfl
  · unfold takeUntil at h
    by_cases ha : a = c
    · exact Or.inr ⟨r, by rw [ha]⟩
    · simp [ha] at h

/-- A stripped-to-empty href is empty or begins with `#` or `?`. -/
theorem strippedEmpty_head {h : Str}
    (he : takeUntil '?' (takeUntil '#' h) = []) :
    h = [] ∨ (∃ r, h = '#' :: r) ∨ (∃ r, h = '?' :: r) := by
  rcases takeUntil_eq_nil_cases he with h1 | ⟨r, h1⟩
  · rcases takeUntil_eq_nil_cases h1 with h2 | ⟨r2, h2⟩
    · exact Or.inl h2
    · exact Or.inr (Or.inl ⟨r2, h2⟩)
  · rcases hh : h with _ | ⟨a, r3⟩
    · exact Or.inl rfl
    · rw [hh] at h1
      unfold takeUntil at h1
      by_cases ha : a = '#'
      · exact Or.inr (Or.inl ⟨r3, by rw [ha]⟩)
      · simp only [if_neg ha] at h1
        have : a = '?' := (List.cons_eq_cons.mp h1).1
        exact Or.inr (Or.inr ⟨r3, by rw [this]⟩)

theorem strippedEmpty_not_http {h : Str}
    (he : takeUntil '?' (takeUntil '#' h) = []) :
    (strOf "http").isPrefixOf h = false := by
  rcases strippedEmpty_head he with h1 | ⟨r, h1⟩ | ⟨r, h1⟩ <;> subst h1 <;>
    simp [strOf, List.isPrefixOf]

theorem addIssue_graph (st : AState) (f t lvl msg : Str) :
    (addIssue st f t lvl msg).graph = st.graph := rfl

theorem fmtFold_graph (msgs : List Str) (srcRel : Str) :
    ∀ st : AState,
      (msgs.foldl (fun s m => addIssue s srcRel (strOf "bad_url_format") (strOf "WARN") m)
          st).graph = st.graph := by
  induction msgs with
  | nil => intro st; rfl
  | cons m ms ih => intro st; simp only [List.foldl_cons]; rw [ih]; rfl

/-- C6 (amended): an href that is empty after fragment/query stripping
is never resolved (`resolve_local_path` returns `(None, False)`), adds
no link-graph edge, and raises no exception — but, unless it starts with
an ignore prefix such as `#`, the auditor treats it as an unresolved
internal link and does raise a `dead_link_local` issue after the URL
format warnings; the builder's canonicalization does not strip
query/fragment suffixes at all. -/
theorem emptyHref_skipResolution (cfg : AConfig) (fs : List (List Str)) (st : AState)
    (srcRel : Str) (cur : List Str) (lk : ALink)
    (hemp : takeUntil '?' (takeUntil '#' (stripWsEnds lk.href)) = [])
    (hign : (ignorePres.any (fun w => w.isPrefixOf (stripWsEnds lk.href))) = false) :
    resolveLocalPath cfg fs cur (stripWsEnds lk.href) = RRes.rnone ∧
    (processHref cfg fs st srcRel cur lk).1.graph = st.graph ∧
    (processHref cfg fs st srcRel cur lk).1.issues =
      ((checkUrlFormat cfg (stripWsEnds lk.href)).foldl
          (fun s m => addIssue s srcRel (strOf "bad_url_format") (strOf "WARN") m)
          st).issues
        ++ [⟨srcRel, strOf "dead_link_local", strOf "ERROR", strOf "dead link"⟩] ∧
    (processHref cfg fs st srcRel cur lk).2 = false := by
  have hres : resolveLocalPath cfg fs cur (stripWsEnds lk.href) = RRes.rnone := by
    unfold resolveLocalPath
    rw [if_pos hemp]
  have hhttp := strippedEmpty_not_http hemp
  have hstep : processHref cfg fs st srcRel cur lk =
      (addIssue ((checkUrlFormat cfg (stripWsEnds lk.href)).foldl
          (fun s m => addIssue s srcRel (strOf "bad_url_format") (strOf "WARN") m) st)
        srcRel (strOf "dead_link_local") (strOf "ERROR") (strOf "dead link"), false) := by
    simp only [processHref, hign, Bool.false_eq_true, if_false, hhttp, Bool.false_and,
      hres]
  rw [hstep] at *
  refine ⟨hres, ?_, ?_, rfl⟩
  · rw [addIssue_graph, fmtFold_graph]
  · rfl

/-- Witness for `emptyHref_skipResolution` at the href `?x`. -/
theorem emptyHref_skipResolution_witness :
    resolveLocalPath { baseUrl := none, rootSegs := [strOf "root"] } []
        [strOf "root", strOf "index.html"] (stripWsEnds (strOf "?x")) = RRes.rnone ∧
    (processHref { baseUrl := none, rootSegs := [strOf "root"] } [] initAState
        (strOf "index.html") [strOf "root", strOf "index.html"]
        ⟨strOf "?x", []⟩).1.graph = initAState.graph ∧
    (processHref { baseUrl := none, rootSegs := [strOf "root"] } [] initAState
        (strOf "index.html") [strOf "root", strOf "index.html"]
        ⟨strOf "?x", []⟩).1.issues =
      ((checkUrlFormat { baseUrl := none, rootSegs := [strOf "root"] }
          (stripWsEnds (strOf "?x"))).foldl
          (fun s m => addIssue s (strOf "index.html") (strOf "bad_url_format")
            (strOf "WARN") m) initAState).issues
        ++ [⟨strOf "index.html", strOf "dead_link_local", strOf "ERROR",
              strOf "dead link"⟩] ∧
    (processHref { baseUrl := none, rootSegs := [strOf "root"] } [] initAState
        (strOf "index.html") [strOf "root", strOf "index.html"]
        ⟨strOf "?x", []⟩).2 = false :=
  emptyHref_skipResolution { baseUrl := none, rootSegs := [strOf "root"] } []
    initAState (strOf "index.html") [strOf "root", strOf "index.html"]
    ⟨strOf "?x", []⟩ (by decide) (by decide)

/-- C6 counterexample: the href `?x` is empty after stripping but does
raise a `dead_link_local` issue (after a format warning), contradicting
"raises no dead-link issue"; and the builder canonicalizes it to
`/blog/?x` instead of skipping it. -/
theorem emptyHref_counterexample :
    ((processHref { baseUrl := none, rootSegs := [strOf "root"] } [] initAState
        (strOf "index.html") [strOf "root", strOf "index.html"]
        ⟨strOf "?x", []⟩).1.issues.map (fun i => i.typeCode))
      = [strOf "bad_url_format", strOf "dead_link_local"] ∧
    (processHref { baseUrl := none, rootSegs := [strOf "root"] } [] initAState
        (strOf "index.html") [strOf "root", strOf "index.html"]
        ⟨strOf "?x", []⟩).1.graph = [] ∧
    cleanLink (strOf "?x") (strOf "blog/post.html") = strOf "/blog/?x" := by
  decide

/-! ### Claim C4: hrefs carrying the site's own domain -/

theorem takeUntil_of_not_mem {c : Char} : ∀ {s : Str}, c ∉ s → takeUntil c s = s
  | [], _ => rfl
  | a :: r, h => by
    unfold takeUntil
    have ha : ¬(a = c) := by
      intro he
      subst he
      exact h (List.mem_cons_self a r)
    rw [if_neg ha]
    rw [takeUntil_of_not_mem (fun hm => h (List.mem_cons_of_mem a hm))]

theorem isPrefixOf_append_self (a b : Str) : a.isPrefixOf (a ++ b) = true := by
  rw [List.isPrefixOf_iff_prefix]
  exact List.prefix_append a b

/-- C4 (amended): only the audit-side `locate` strips the site's own
fully-qualified domain (yielding a root-relative path resolved against
the audit root); the build-side canonicalization `clean_link` returns an
own-domain href entirely unchanged, because any `http...` href hits the
special-protocol early return before the domain could be inspected. -/
theorem ownDomain_paths (cfg : AConfig) (fs : List (List Str)) (cur : List Str)
    (rest p : Str)
    (hb : cfg.baseUrl = some domainStr)
    (h1 : '#' ∉ rest) (h2 : '?' ∉ rest) :
    resolveLocalPath cfg fs cur (domainStr ++ rest) =
      resolveLocalPath cfg fs cur
        (if (strOf "/").isPrefixOf rest then rest else '/' :: rest) ∧
    cleanLink (domainStr ++ rest) p = domainStr ++ rest := by
  constructor
  · have hnm : ∀ c : Char, c ∉ domainStr → c ∉ rest → c ∉ domainStr ++ rest := by
      intro c hc1 hc2 hm
      rcases List.mem_append.mp hm with hm | hm
      · exact hc1 hm
      · exact hc2 hm
    have hs1 : takeUntil '?' (takeUntil '#' (domainStr ++ rest)) = domainStr ++ rest := by
      rw [takeUntil_of_not_mem (hnm '#' (by decide) h1),
        takeUntil_of_not_mem (hnm '?' (by decide) h2)]
    set href2 := if (strOf "/").isPrefixOf rest then rest else '/' :: rest with hh2
    have hhead : ∃ r2, href2 = '/' :: r2 := by
      rw [hh2]
      by_cases hp : (strOf "/").isPrefixOf rest = true
      · rw [if_pos hp]
        rw [List.isPrefixOf_iff_prefix] at hp
        obtain ⟨t, ht⟩ := hp
        exact ⟨t, ht.symm⟩
      · rw [if_neg hp]
        exact ⟨rest, rfl⟩
    obtain ⟨r2, hr2⟩ := hhead
    have hs2 : takeUntil '?' (takeUntil '#' href2) = href2 := by
      have hm2 : ∀ c : Char, c ≠ '/' → c ∉ rest → c ∉ href2 := by
        intro c hc hcr hm
        rw [hh2] at hm
        by_cases hp : (strOf "/").isPrefixOf rest = true
        · rw [if_pos hp] at hm; exact hcr hm
        · rw [if_neg hp] at hm
          rcases List.mem_cons.mp hm with hm | hm
          · exact hc hm
          · exact hcr hm
      rw [takeUntil_of_not_mem (hm2 '#' (by decide) h1),
        takeUntil_of_not_mem (hm2 '?' (by decide) h2)]
    have hclean1 : cleanHrefOf cfg (domainStr ++ rest) = href2 := by
      unfold cleanHrefOf
      rw [hb]
      simp only [hs1]
      rw [if_pos]
      · rw [List.drop_left]
      · rw [isPrefixOf_append_self]
        decide
    have hclean2 : cleanHrefOf cfg href2 = href2 := by
      unfold cleanHrefOf
      rw [hb]
      simp only [hs2]
      rw [if_neg]
      intro hc
      rw [Bool.and_eq_true, List.isPrefixOf_iff_prefix] at hc
      obtain ⟨t, ht⟩ := hc.2
      rw [hr2] at ht
      have h3 := congrArg (fun l => l.head?) ht
      simp [domainStr, strOf] at h3
    have hne1 : ¬(takeUntil '?' (takeUntil '#' (domainStr ++ rest)) = []) := by
      rw [hs1]
      simp [domainStr, strOf]
    have hne2 : ¬(takeUntil '?' (takeUntil '#' href2) = []) := by
      rw [hs2, hr2]
      simp
    unfold resolveLocalPath
    rw [if_neg hne1, if_neg hne2]
    unfold targetOf
    rw [hclean1, hclean2]
  · unfold cleanLink
    rw [if_neg, if_pos]
    · unfold specialPres
      simp only [List.any_cons]
      have : (strOf "http").isPrefixOf (domainStr ++ rest) = true := by
        have : domainStr ++ rest = strOf "http" ++ (strOf "s://global-apple-id.top" ++ rest) := by
          simp [domainStr, strOf]
        rw [this, isPrefixOf_append_self]
      rw [this]
      simp
    · simp [domainStr, strOf]

/-- Witness for `ownDomain_paths` at `https://global-apple-id.top/about.html`. -/
theorem ownDomain_paths_witness :
    resolveLocalPath { baseUrl := some domainStr, rootSegs := [strOf "root"] }
        [[strOf "root", strOf "about.html"]] [strOf "root", strOf "index.html"]
        (domainStr ++ strOf "/about.html") =
      resolveLocalPath { baseUrl := some domainStr, rootSegs := [strOf "root"] }
        [[strOf "root", strOf "about.html"]] [strOf "root", strOf "index.html"]
        (if (strOf "/").isPrefixOf (strOf "/about.html") then strOf "/about.html"
         else '/' :: strOf "/about.html") ∧
    cleanLink (domainStr ++ strOf "/about.html") (strOf "blog/post.html")
      = domainStr ++ strOf "/about.html" :=
  ownDomain_paths { baseUrl := some domainStr, rootSegs := [strOf "root"] }
    [[strOf "root", strOf "about.html"]] [strOf "root", strOf "index.html"]
    (strOf "/about.html") (strOf "blog/post.html") rfl (by decide) (by decide)

/-- C4 counterexample: the claim says canonicalization strips the
site's own domain, but `clean_link` returns the own-domain href
`https://global-apple-id.top/about.html` unchanged (it is caught by the
`http` early return), not the stripped-and-canonicalized `/about`. -/
theorem cleanLink_keepsDomain_counterexample :
    cleanLink (strOf "https://global-apple-id.top/about.html") (strOf "blog/post.html")
      = strOf "https://global-apple-id.top/about.html" ∧
    cleanLink (strOf "https://global-apple-id.top/about.html") (strOf "blog/post.html")
      ≠ strOf "/about" := by decide

/-! ### Claim C2: failure policy of the two passes -/

theorem addIssue_issues (st : AState) (f t lvl msg : Str) :
    (addIssue st f t lvl msg).issues = st.issues ++ [⟨f, t, lvl, msg⟩] := rfl

theorem fmtFold_issues_extend (msgs : List Str) (srcRel : Str) :
    ∀ st : AState, ∃ l,
      (msgs.foldl (fun s m => addIssue s srcRel (strOf "bad_url_format") (strOf "WARN") m)
          st).issues = st.issues ++ l := by
  induction msgs with
  | nil => intro st; exact ⟨[], by simp⟩
  | cons m ms ih =>
    intro st
    obtain ⟨l, hl⟩ := ih (addIssue st srcRel (strOf "bad_url_format") (strOf "WARN") m)
    refine ⟨⟨srcRel, strOf "bad_url_format", strOf "WARN", m⟩ :: l, ?_⟩
    rw [List.foldl_cons, hl, addIssue_issues, List.append_assoc]
    rfl

theorem processHref_issues_extend (cfg : AConfig) (fs : List (List Str)) (st : AState)
    (srcRel : Str) (cur : List Str) (lk : ALink) :
    ∃ l, (processHref cfg fs st srcRel cur lk).1.issues = st.issues ++ l := by
  have hext : (addExternal st (stripWsEnds lk.href)).issues = st.issues := by
    unfold addExternal; split <;> rfl
  simp only [processHref]
  split
  · exact ⟨[], by simp⟩
  · split
    · split
      · refine ⟨[⟨srcRel, strOf "unsafe_external_link", strOf "WARN",
          strOf "missing noopener"⟩], ?_⟩
        rw [addIssue_issues, hext]
      · exact ⟨[], by rw [hext, List.append_nil]⟩
    · obtain ⟨l, hl⟩ := fmtFold_issues_extend (checkUrlFormat cfg (stripWsEnds lk.href)) srcRel st
      split
      · exact ⟨l, hl⟩
      · split
        · exact ⟨l, hl⟩
        · exact ⟨l, hl⟩
      · exact ⟨l ++ [⟨srcRel, strOf "dead_link_local", strOf "ERROR", strOf "dead link"⟩],
          by rw [addIssue_issues, hl, List.append_assoc]⟩
      · exact ⟨l ++ [⟨srcRel, strOf "dead_link_local", strOf "ERROR", strOf "dead link"⟩],
          by rw [addIssue_issues, hl, List.append_assoc]⟩

theorem auditLinksGo_issues_extend (cfg : AConfig) (fs : List (List Str)) (srcRel : Str)
    (cur : List Str) (links : List ALink) :
    ∀ st : AState, ∃ l, (auditLinksGo cfg fs srcRel cur st links).1.issues = st.issues ++ l := by
  induction links with
  | nil => intro st; exact ⟨[], by simp [auditLinksGo]⟩
  | cons lk ls ih =>
    intro st
    obtain ⟨l1, hl1⟩ := processHref_issues_extend cfg fs st srcRel cur lk
    simp only [auditLinksGo]
    rcases hp : processHref cfg fs st srcRel cur lk with ⟨st2, fl⟩
    rw [hp] at hl1
    rcases fl
    · obtain ⟨l2, hl2⟩ := ih st2
      exact ⟨l1 ++ l2, by simp only []; rw [hl2, hl1, List.append_assoc]⟩
    · exact ⟨l1, hl1⟩

theorem auditFile_issues_extend (cfg : AConfig) (fs : List (List Str)) (st : AState)
    (d : ADoc) : ∃ l, (auditFile cfg fs st d).issues = st.issues ++ l := by
  unfold auditFile auditFileBody
  set st1 := if d.h1Count ≠ 1 then
      addIssue st (joinChar '/' d.relSegs) (strOf "missing_h1") (strOf "ERROR")
        (strOf "h1 count") else st with hst1
  set st2 := if !d.hasSchema then
      addIssue st1 (joinChar '/' d.relSegs) (strOf "missing_schema") (strOf "WARN")
        (strOf "no schema") else st1 with hst2
  obtain ⟨l3, hl3⟩ := auditLinksGo_issues_extend cfg fs (joinChar '/' d.relSegs)
    (cfg.rootSegs ++ d.relSegs) d.links st2
  have h1 : ∃ a, st1.issues = st.issues ++ a := by
    rw [hst1]; split
    · exact ⟨_, rfl⟩
    · exact ⟨[], by simp⟩
  have h2 : ∃ b, st2.issues = st1.issues ++ b := by
    rw [hst2]; split
    · exact ⟨_, rfl⟩
    · exact ⟨[], by simp⟩
  obtain ⟨a, ha⟩ := h1
  obtain ⟨b, hb⟩ := h2
  exact ⟨a ++ b ++ l3, by rw [hl3, hb, ha]; simp [List.append_assoc]⟩

theorem auditRun_issues_extend (cfg : AConfig) (fs : List (List Str)) (docs : List ADoc) :
    ∀ st : AState, ∃ l, (auditRun cfg fs st docs).issues = st.issues ++ l := by
  induction docs with
  | nil => intro st; exact ⟨[], by simp [auditRun]⟩
  | cons d ds ih =>
    intro st
    obtain ⟨l1, hl1⟩ := auditFile_issues_extend cfg fs st d
    obtain ⟨l2, hl2⟩ := ih (auditFile cfg fs st d)
    exact ⟨l1 ++ l2, by simp only [auditRun]; rw [hl2, hl1, List.append_assoc]⟩

theorem auditFile_h1_issue (cfg : AConfig) (fs : List (List Str)) (st : AState)
    (d : ADoc) (hh : d.h1Count ≠ 1) :
    (⟨joinChar '/' d.relSegs, strOf "missing_h1", strOf "ERROR", strOf "h1 count"⟩ : Issue)
      ∈ (auditFile cfg fs st d).issues := by
  simp only [auditFile, auditFileBody]
  rw [if_pos hh]
  set st1 := addIssue st (joinChar '/' d.relSegs) (strOf "missing_h1") (strOf "ERROR")
    (strOf "h1 count") with hst1
  set st2 := if !d.hasSchema then
      addIssue st1 (joinChar '/' d.relSegs) (strOf "missing_schema") (strOf "WARN")
        (strOf "no schema") else st1 with hst2
  obtain ⟨l3, hl3⟩ := auditLinksGo_issues_extend cfg fs (joinChar '/' d.relSegs)
    (cfg.rootSegs ++ d.relSegs) d.links st2
  rw [hl3]
  have h2 : ∃ b, st2.issues = st1.issues ++ b := by
    rw [hst2]; split
    · exact ⟨_, rfl⟩
    · exact ⟨[], by simp⟩
  obtain ⟨b, hb⟩ := h2
  rw [hb, hst1]
  simp [addIssue]

/-- C2 (amended): in the auditor, a failure inside `audit_file` is
caught (the run is a total fold over all documents), so every document
of the set is audited and its issues — here the `missing_h1` issue of
any document with a wrong `h1` count — appear in the final log even when
other documents raise; in the builder, `step_3_process_all_pages` has no
handler and one raised exception aborts the whole pass (see the
counterexample). -/
theorem auditRun_processes_all (cfg : AConfig) (fs : List (List Str)) (st : AState)
    (docs : List ADoc) (d : ADoc) (hd : d ∈ docs) (hh : d.h1Count ≠ 1) :
    (⟨joinChar '/' d.relSegs, strOf "missing_h1", strOf "ERROR", strOf "h1 count"⟩ : Issue)
      ∈ (auditRun cfg fs st docs).issues := by
  induction docs generalizing st with
  | nil => cases hd
  | cons d0 ds ih =>
    rcases List.mem_cons.mp hd with he | hm
    · subst he
      simp only [auditRun]
      obtain ⟨l, hl⟩ := auditRun_issues_extend cfg fs ds (auditFile cfg fs st d)
      rw [hl]
      exact List.mem_append_left l (auditFile_h1_issue cfg fs st d hh)
    · simp only [auditRun]
      exact ih (auditFile cfg fs st d0) hm

/-- Witness for `auditRun_processes_all`: the first document's link
resolves to a file outside the audit root, so its `relative_to` raises
inside `audit_file` (second conjunct), yet the second document is still
audited and its `missing_h1` issue reaches the final log. -/
theorem auditRun_processes_all_witness :
    (⟨joinChar '/' (ADoc.relSegs ⟨[strOf "about.html"], 0, true, []⟩),
        strOf "missing_h1", strOf "ERROR", strOf "h1 count"⟩ : Issue)
      ∈ (auditRun { baseUrl := none, rootSegs := [strOf "site"] } [[strOf "x.html"]]
          initAState
          [⟨[strOf "index.html"], 1, true, [⟨strOf "/../x.html", []⟩]⟩,
           ⟨[strOf "about.html"], 0, true, []⟩]).issues ∧
    (auditFileBody { baseUrl := none, rootSegs := [strOf "site"] } [[strOf "x.html"]]
        initAState ⟨[strOf "index.html"], 1, true, [⟨strOf "/../x.html", []⟩]⟩).2 = true :=
  ⟨auditRun_processes_all { baseUrl := none, rootSegs := [strOf "site"] } [[strOf "x.html"]]
      initAState
      [⟨[strOf "index.html"], 1, true, [⟨strOf "/../x.html", []⟩]⟩,
       ⟨[strOf "about.html"], 0, true, []⟩]
      ⟨[strOf "about.html"], 0, true, []⟩ (by decide) (by decide),
   by decide⟩

/-- C2 counterexample: `step_3_process_all_pages` has no exception
handler.  A `blog/index.html` whose ld+json script has no string content
(`.string is None`) raises `TypeError` inside `process_page`, the pass
aborts, and the second (well-formed) document is never processed — even
though it processes fine on its own (second conjunct). -/
theorem step3_abort_counterexample :
    step3Go [⟨[strOf "blog", strOf "index.html"], strOf "2026-01-01", [], [none]⟩,
             ⟨[strOf "about.html"], strOf "2026-01-01", [], [some (strOf "x")]⟩]
      = ([], true) ∧
    step3Go [⟨[strOf "about.html"], strOf "2026-01-01", [], [some (strOf "x")]⟩]
      = ([entryFor false (strOf "2026-01-01") [strOf "about.html"]], false) := by
  decide

/-! ### Claim C9: evergreen year cleaning -/

theorem yearHead_elim : ∀ {l : Str}, yearHead l = true →
    ∃ d t, l = '2' :: '0' :: '2' :: d :: t ∧ d.isDigit = true := by
  intro l h
  rcases l with _ | ⟨c1, _ | ⟨c2, _ | ⟨c3, _ | ⟨c4, t⟩⟩⟩⟩ <;> simp [yearHead] at h
  obtain ⟨⟨⟨h1, h2⟩, h3⟩, h4⟩ := h
  exact ⟨c4, t, by rw [h1, h2, h3], h4⟩

theorem yearHead_cons_ne {c : Char} (hc : ¬(c = '2')) (l : Str) :
    yearHead (c :: l) = false := by
  rcases l with _ | ⟨a, _ | ⟨b, _ | ⟨e, r⟩⟩⟩ <;> simp [yearHead, hc]

theorem matchYear_at_year (br : Bool) (d : Char) (t : Str) (hd : d.isDigit = true) :
    matchYear br ('2' :: '0' :: '2' :: d :: t) ≠ none := by
  unfold matchYear
  have h1 : skipWs ('2' :: '0' :: '2' :: d :: t) = '2' :: '0' :: '2' :: d :: t := by
    simp [skipWs, List.dropWhile, isWsChar]
  rw [h1]
  have h2 : skipOpenBr br ('2' :: '0' :: '2' :: d :: t) = '2' :: '0' :: '2' :: d :: t := by
    rcases br <;> simp [skipOpenBr, isOpenBr]
  rw [h2]
  simp [matchYearCore, hd]

theorem cleanYearsF_head (br : Bool) :
    ∀ (fuel : Nat) (t : Str) (x : Char) (r : Str),
      cleanYearsF br fuel t = x :: r → ¬(x = ' ') →
      ∃ f2 t2, fuel = f2 + 1 ∧ t = x :: t2 ∧ r = cleanYearsF br f2 t2 ∧
        matchYear br (x :: t2) = none := by
  intro fuel t x r h hx
  rcases fuel with _ | f2
  · simp [cleanYearsF] at h
  · rcases t with _ | ⟨a, ts⟩
    · simp [cleanYearsF] at h
    · simp only [cleanYearsF] at h
      rcases hm : matchYear br (a :: ts) with _ | rest
      · rw [hm] at h
        simp only [] at h
        obtain ⟨h1, h2⟩ := List.cons_eq_cons.mp h
        subst h1
        exact ⟨f2, ts, rfl, rfl, h2.symm, hm⟩
      · rw [hm] at h
        obtain ⟨h1, h2⟩ := List.cons_eq_cons.mp h
        exact absurd h1.symm hx

theorem cleanYearsF_no_year (br : Bool) :
    ∀ (fuel : Nat) (s : Str), s.length ≤ fuel →
      hasYearTok (cleanYearsF br fuel s) = false := by
  intro fuel
  induction fuel with
  | zero => intro s h; rcases s with _ | ⟨c, cs⟩ <;> rfl
  | succ f ih =>
    intro s h
    rcases s with _ | ⟨c, cs⟩
    · rfl
    · simp only [cleanYearsF]
      rcases hm : matchYear br (c :: cs) with _ | rest
      · simp only []
        have hcs : cs.length ≤ f := by
          simp only [List.length_cons] at h; omega
        rw [hasYearTok, ih cs hcs, Bool.or_false]
        by_cases hY : yearHead (c :: cleanYearsF br f cs) = true
        · exfalso
          obtain ⟨d, t, hsh, hd⟩ := yearHead_elim hY
          obtain ⟨hc2, hout⟩ := List.cons_eq_cons.mp hsh
          obtain ⟨f1, t1, _, he1, hr1, _⟩ := cleanYearsF_head br f cs '0' ('2' :: d :: t)
            hout (by decide)
          obtain ⟨f2, t2, _, he2, hr2, _⟩ := cleanYearsF_head br f1 t1 '2' (d :: t)
            hr1.symm (by decide)
          have hdne : ¬(d = ' ') := by
            intro hde; rw [hde] at hd; exact absurd hd (by decide)
          obtain ⟨f3, t3, _, he3, hr3, _⟩ := cleanYearsF_head br f2 t2 d t
            hr2.symm hdne
          rw [hc2, he1, he2, he3] at hm
          exact matchYear_at_year br d t3 hd hm
        · simp at hY
          exact hY
      · simp only []
        have hrest : rest.length ≤ f := by
          have h1 := matchYear_length hm
          simp only [List.length_cons] at h1 h
          omega
        rw [hasYearTok, ih rest hrest, Bool.or_false]
        exact yearHead_cons_ne (by decide) _

/-- The year scanner leaves no `202[0-9]` token in its output. -/
theorem cleanYears_no_year (br : Bool) (s : Str) :
    hasYearTok (cleanYears br s) = false :=
  cleanYearsF_no_year br s.length s (le_refl _)

theorem hasYearTok_tail {c : Char} {l : Str} (h : hasYearTok (c :: l) = false) :
    hasYearTok l = false := by
  rw [hasYearTok, Bool.or_eq_false_iff] at h
  exact h.2

theorem hasYearTok_dropWhile (p : Char → Bool) :
    ∀ {l : Str}, hasYearTok l = false → hasYearTok (l.dropWhile p) = false := by
  intro l
  induction l with
  | nil => intro h; exact h
  | cons c cs ih =>
    intro h
    rw [List.dropWhile_cons]
    split
    · exact ih (hasYearTok_tail h)
    · exact h

theorem collapseWsF_head :
    ∀ (fuel : Nat) (t : Str) (x : Char) (r : Str),
      collapseWsF fuel t = x :: r → ¬(x = ' ') →
      ∃ f2 t2, fuel = f2 + 1 ∧ t = x :: t2 ∧ isWsChar x = false ∧
        r = collapseWsF f2 t2 := by
  intro fuel t x r h hx
  rcases fuel with _ | f2
  · simp [collapseWsF] at h
  · rcases t with _ | ⟨a, ts⟩
    · simp [collapseWsF] at h
    · simp only [collapseWsF] at h
      by_cases hw : isWsChar a = true
      · rw [if_pos hw] at h
        obtain ⟨h1, _⟩ := List.cons_eq_cons.mp h
        exact absurd h1.symm hx
      · rw [if_neg hw] at h
        obtain ⟨h1, h2⟩ := List.cons_eq_cons.mp h
        subst h1
        exact ⟨f2, ts, rfl, rfl, by simpa using hw, h2.symm⟩

theorem collapseWsF_no_year :
    ∀ (fuel : Nat) (s : Str), s.length ≤ fuel → hasYearTok s = false →
      hasYearTok (collapseWsF fuel s) = false := by
  intro fuel
  induction fuel with
  | zero => intro s h hs; rcases s with _ | ⟨c, cs⟩ <;> rfl
  | succ f ih =>
    intro s h hs
    rcases s with _ | ⟨c, cs⟩
    · rfl
    · simp only [collapseWsF]
      have hcs : cs.length ≤ f := by
        simp only [List.length_cons] at h; omega
      by_cases hw : isWsChar c = true
      · rw [if_pos hw]
        have hd : (cs.dropWhile isWsChar).length ≤ f :=
          le_trans (dropWhile_length isWsChar cs) hcs
        rw [hasYearTok, ih _ hd (hasYearTok_dropWhile isWsChar (hasYearTok_tail hs)),
          Bool.or_false]
        exact yearHead_cons_ne (by decide) _
      · rw [if_neg hw]
        rw [hasYearTok, ih cs hcs (hasYearTok_tail hs), Bool.or_false]
        by_cases hY : yearHead (c :: collapseWsF f cs) = true
        · exfalso
          obtain ⟨d, t, hsh, hdg⟩ := yearHead_elim hY
          obtain ⟨hc2, hout⟩ := List.cons_eq_cons.mp hsh
          obtain ⟨f1, t1, _, he1, _, hr1⟩ := collapseWsF_head f cs '0' ('2' :: d :: t)
            hout (by decide)
          obtain ⟨f2, t2, _, he2, _, hr2⟩ := collapseWsF_head f1 t1 '2' (d :: t)
            hr1.symm (by decide)
          have hdne : ¬(d = ' ') := by
            intro hde; rw [hde] at hdg; exact absurd hdg (by decide)
          obtain ⟨f3, t3, _, he3, _, _⟩ := collapseWsF_head f2 t2 d t hr2.symm hdne
          rw [hasYearTok, Bool.or_eq_false_iff] at hs
          rw [hc2, he1, he2, he3] at hs
          have : yearHead ('2' :: '0' :: '2' :: d :: t3) = true := by
            simp [yearHead, hdg]
          rw [this] at hs
          exact absurd hs.1 (by decide)
        · simp at hY
          exact hY

theorem collapseWs_no_year {s : Str} (h : hasYearTok s = false) :
    hasYearTok (collapseWs s) = false :=
  collapseWsF_no_year s.length s (le_refl _) h

theorem hasYearTok_append_year (t1 t2 : Str) (d : Char) (hd : d.isDigit = true) :
    hasYearTok (t1 ++ '2' :: '0' :: '2' :: d :: t2) = true := by
  induction t1 with
  | nil =>
    rw [List.nil_append, hasYearTok]
    have : yearHead ('2' :: '0' :: '2' :: d :: t2) = true := by simp [yearHead, hd]
    rw [this, Bool.true_or]
  | cons c cs ih =>
    rw [List.cons_append, hasYearTok, ih, Bool.or_true]

theorem hasYearTok_decomp : ∀ {l : Str}, hasYearTok l = true →
    ∃ t1 d t2, d.isDigit = true ∧ l = t1 ++ '2' :: '0' :: '2' :: d :: t2 := by
  intro l
  induction l with
  | nil => intro h; exact absurd h (by decide)
  | cons c cs ih =>
    intro h
    rw [hasYearTok, Bool.or_eq_true] at h
    rcases h with h | h
    · obtain ⟨d, t, hsh, hd⟩ := yearHead_elim h
      exact ⟨[], d, t, hd, hsh⟩
    · obtain ⟨t1, d, t2, hd, he⟩ := ih h
      exact ⟨c :: t1, d, t2, hd, by rw [List.cons_append, he]⟩

theorem stripWsEnds_decomp (s : Str) :
    ∃ a b, s = a ++ stripWsEnds s ++ b := by
  refine ⟨s.takeWhile isWsChar,
    ((s.dropWhile isWsChar).reverse.takeWhile isWsChar).reverse, ?_⟩
  unfold stripWsEnds
  have h1 : s = s.takeWhile isWsChar ++ s.dropWhile isWsChar :=
    (List.takeWhile_append_dropWhile isWsChar s).symm
  have h2 : s.dropWhile isWsChar =
      ((s.dropWhile isWsChar).reverse.dropWhile isWsChar).reverse
        ++ ((s.dropWhile isWsChar).reverse.takeWhile isWsChar).reverse := by
    have h3 := List.takeWhile_append_dropWhile isWsChar (s.dropWhile isWsChar).reverse
    have h4 := congrArg List.reverse h3
    rw [List.reverse_append, List.reverse_reverse] at h4
    exact h4.symm
  rw [List.append_assoc, ← h2]
  exact h1

theorem stripWsEnds_no_year {s : Str} (h : hasYearTok s = false) :
    hasYearTok (stripWsEnds s) = false := by
  by_cases hY : hasYearTok (stripWsEnds s) = true
  · exfalso
    obtain ⟨t1, d, t2, hd, he⟩ := hasYearTok_decomp hY
    obtain ⟨a, b, hab⟩ := stripWsEnds_decomp s
    rw [he] at hab
    have : hasYearTok s = true := by
      rw [hab]
      have : a ++ (t1 ++ '2' :: '0' :: '2' :: d :: t2) ++ b
          = (a ++ t1) ++ '2' :: '0' :: '2' :: d :: (t2 ++ b) := by
        simp [List.append_assoc]
      rw [this]
      exact hasYearTok_append_year (a ++ t1) (t2 ++ b) d hd
    rw [this] at h
    exact absurd h (by decide)
  · simp at hY
    exact hY

/-- C9 (amended): the cleaning targets exactly the decade tokens
`202[0-9]` (optionally `年`-suffixed) — other four-digit years such as
`1999` are untouched; surrounding brackets are consumed only in the
title pattern, not in the description pattern; after cleaning and
whitespace collapsing, neither the scanned title nor the description
contains any `202[0-9]` token. -/
theorem scanClean_no_year_tokens :
    (∀ raw : Str, hasYearTok (scanTitleClean raw) = false) ∧
    (∀ d : Str, hasYearTok (scanDescClean d) = false) ∧
    scanTitleClean (strOf "Apple ID (2026) Guide | Site") = strOf "Apple ID Guide" := by
  refine ⟨?_, ?_, by decide⟩
  · intro raw
    exact stripWsEnds_no_year (collapseWs_no_year (cleanYears_no_year true _))
  · intro d
    exact stripWsEnds_no_year (collapseWs_no_year (cleanYears_no_year false _))

/-- C9 counterexample: in the description the brackets around a year are
not removed (`(2026) apple guide` keeps `( )`), and a four-digit year
outside 2020–2029 (here `1999`) is not removed from the title — both
contradicting the claim as stated. -/
theorem scanClean_counterexample :
    scanDescClean (strOf "(2026) apple guide") = strOf "( ) apple guide" ∧
    scanDescClean (strOf "(2026) apple guide") ≠ strOf "apple guide" ∧
    scanTitleClean (strOf "Best guide 1999") = strOf "Best guide 1999" := by
  decide

/-! ### Claim C1: idempotence of the per-document link pass -/

theorem hashPre_cons {c : Char} {r : Str} (hc : ¬(c = '#')) :
    (strOf "#").isPrefixOf (c :: r) = false := by
  show (('#' == c) && List.isPrefixOf [] r) = false
  have hb : ('#' == c) = false := by
    rcases hbe : ('#' == c) with _ | _
    · rfl
    · exact absurd (beq_iff_eq.mp hbe).symm hc
  rw [hb, Bool.false_and]

theorem isPrefixOf_cons_elim {a : Char} {as v : Str}
    (h : (a :: as).isPrefixOf v = true) : ∃ r, v = a :: r := by
  rcases v with _ | ⟨b, r⟩
  · simp [List.isPrefixOf] at h
  · have h2 : ((a == b) && as.isPrefixOf r) = true := h
    rw [Bool.and_eq_true] at h2
    exact ⟨r, by rw [beq_iff_eq.mp h2.1]⟩

/-- A value satisfying these side conditions is a fixed point of
`clean_link`. -/
theorem cleanLink_fixpoint (v p : Str)
    (h0 : v = [] ∨ specialPres.any (fun w => w.isPrefixOf v) = true
      ∨ hasScheme v = true ∨ (strOf "/").isPrefixOf v = true)
    (h1 : (strOf ".html").isSuffixOf v = false)
    (h2 : ((strOf "/").isSuffixOf v && decide (1 < v.length)) = false) :
    cleanLink v p = v := by
  unfold cleanLink
  by_cases he : v = []
  · rw [if_pos he]
  · rw [if_neg he]
    by_cases hsp : specialPres.any (fun w => w.isPrefixOf v) = true
    · rw [if_pos hsp]
    · rw [if_neg hsp]
      have hr : (if (strOf "/").isPrefixOf v then v
          else urljoinModel (baseUrlPath p) v) = v := by
        by_cases hpre : (strOf "/").isPrefixOf v = true
        · rw [if_pos hpre]
        · rw [if_neg hpre]
          have hsc : hasScheme v = true := by
            rcases h0 with h0 | h0 | h0 | h0
            · exact absurd h0 he
            · exact absurd h0 hsp
            · exact h0
            · exact absurd h0 hpre
          unfold urljoinModel
          rw [if_pos hsc]
      rw [hr]
      simp only [h1, Bool.false_eq_true, if_false]
      simp only [h2, Bool.false_eq_true, if_false]

/-- One href of the link pass is stable under a second pass when its
first-pass result satisfies the fixed-point side conditions. -/
theorem linkPassOne_idem (isIdx : Bool) (p h : Str)
    (h0 : linkPassOne isIdx p h = []
      ∨ specialPres.any (fun w => w.isPrefixOf (linkPassOne isIdx p h)) = true
      ∨ hasScheme (linkPassOne isIdx p h) = true
      ∨ (strOf "/").isPrefixOf (linkPassOne isIdx p h) = true)
    (h1 : (strOf ".html").isSuffixOf (linkPassOne isIdx p h) = false)
    (h2 : ((strOf "/").isSuffixOf (linkPassOne isIdx p h)
        && decide (1 < (linkPassOne isIdx p h).length)) = false) :
    linkPassOne isIdx p (linkPassOne isIdx p h) = linkPassOne isIdx p h := by
  set v := linkPassOne isIdx p h with hv
  have hnh : (strOf "#").isPrefixOf v = false := by
    rcases h0 with h0 | h0 | h0 | h0
    · rw [h0]; rfl
    · rw [List.any_eq_true] at h0
      obtain ⟨w, hw, hpre⟩ := h0
      simp only [specialPres, List.mem_cons, List.not_mem_nil, or_false] at hw
      rcases hw with hw | hw | hw | hw | hw | hw <;>
        · subst hw
          obtain ⟨r, hr⟩ := isPrefixOf_cons_elim hpre
          rw [hr]
          exact hashPre_cons (by decide)
    · rcases hvc : v with _ | ⟨c, r⟩
      · rfl
      · have hc : ¬(c = '#') := by
          intro he
          have hsf : hasScheme ('#' :: r) = false := by
            show (if '#'.isAlpha = true then hasSchemeAux r else false) = false
            rw [if_neg (by decide : ¬('#'.isAlpha = true))]
          rw [hvc, he, hsf] at h0
          exact absurd h0 (by decide)
        exact hashPre_cons hc
    · obtain ⟨r, hr⟩ := isPrefixOf_cons_elim h0
      rw [hr]
      exact hashPre_cons (by decide)
  unfold linkPassOne
  rw [hnh]
  simp only [Bool.and_false, Bool.false_eq_true, if_false]
  exact cleanLink_fixpoint v p h0 h1 h2

/-- C1 (amended): the link pass of `process_page` is idempotent on a
document provided every href's first-pass result is empty, a
special-protocol link, a scheme-qualified link, or root-relative, and
ends neither in `.html` nor in a non-root trailing slash.  (Hrefs whose
canonical form ends in `.html` — e.g. `/x.html/` — or escapes the root
through excess `../` yield different bytes on a second run, see the
counterexample.) -/
theorem linkPass_idem (isIdx : Bool) (p : Str) (hs : List Str)
    (H : ∀ h ∈ hs,
      (linkPassOne isIdx p h = []
        ∨ specialPres.any (fun w => w.isPrefixOf (linkPassOne isIdx p h)) = true
        ∨ hasScheme (linkPassOne isIdx p h) = true
        ∨ (strOf "/").isPrefixOf (linkPassOne isIdx p h) = true) ∧
      (strOf ".html").isSuffixOf (linkPassOne isIdx p h) = false ∧
      ((strOf "/").isSuffixOf (linkPassOne isIdx p h)
        && decide (1 < (linkPassOne isIdx p h).length)) = false) :
    linkPassHrefs isIdx p (linkPassHrefs isIdx p hs) = linkPassHrefs isIdx p hs := by
  unfold linkPassHrefs
  rw [List.map_map]
  refine List.map_congr_left ?_
  intro h hm
  obtain ⟨h0, h1, h2⟩ := H h hm
  exact linkPassOne_idem isIdx p h h0 h1 h2

/-- Witness for `linkPass_idem` on a small document. -/
theorem linkPass_idem_witness :
    linkPassHrefs false (strOf "blog/post.html")
        (linkPassHrefs false (strOf "blog/post.html")
          [strOf "/about.html", strOf "#top", strOf "../b.html", strOf "mailto:a@b"])
      = linkPassHrefs false (strOf "blog/post.html")
          [strOf "/about.html", strOf "#top", strOf "../b.html", strOf "mailto:a@b"] :=
  linkPass_idem false (strOf "blog/post.html")
    [strOf "/about.html", strOf "#top", strOf "../b.html", strOf "mailto:a@b"]
    (by decide)

/-- C1 counterexample: a second run of the link pass is not a no-op.
The href `/x.html/` becomes `/x.html` on the first pass (the trailing
slash is stripped after the `.html` check) and `/x` on the second; the
href `../../x` (escaping the root through `urljoin`) becomes `x` and
then `/blog/x`. -/
theorem linkPass_idem_counterexample :
    linkPassHrefs false (strOf "blog/post.html") [strOf "/x.html/", strOf "../../x"]
      = [strOf "/x.html", strOf "x"] ∧
    linkPassHrefs false (strOf "blog/post.html")
        (linkPassHrefs false (strOf "blog/post.html") [strOf "/x.html/", strOf "../../x"])
      = [strOf "/x", strOf "/blog/x"] ∧
    ¬([strOf "/x", strOf "/blog/x"] = [strOf "/x.html", strOf "x"]) := by
  decide

/-! ### Claim C3: canonicalization of relative internal hrefs -/

theorem afterFirst_of_not_mem {c : Char} : ∀ {s : Str}, c ∉ s → afterFirst c s = []
  | [], _ => rfl
  | a :: r, h => by
    unfold afterFirst
    have ha : ¬(a = c) := by
      intro he; subst he; exact h (List.mem_cons_self a r)
    rw [if_neg ha]
    exact afterFirst_of_not_mem (fun hm => h (List.mem_cons_of_mem a hm))

theorem hasSchemeAux_no_colon : ∀ {s : Str}, ':' ∉ s → hasSchemeAux s = false
  | [], _ => rfl
  | c :: r, h => by
    unfold hasSchemeAux
    have hc : ¬(c = ':') := by
      intro he; subst he; exact h (List.mem_cons_self _ r)
    rw [if_neg hc]
    split
    · exact hasSchemeAux_no_colon (fun hm => h (List.mem_cons_of_mem c hm))
    · rfl

theorem hasScheme_no_colon {u : Str} (h : ':' ∉ u) : hasScheme u = false := by
  rcases u with _ | ⟨c, r⟩
  · rfl
  · show (if c.isAlpha = true then hasSchemeAux r else false) = false
    split
    · exact hasSchemeAux_no_colon (fun hm => h (List.mem_cons_of_mem c hm))
    · rfl

theorem splitOnChar_cons_eq (c a : Char) (r : Str) {s0 : Str} {ss : List Str}
    (h : splitOnChar c r = s0 :: ss) :
    splitOnChar c (a :: r) = if a = c then [] :: s0 :: ss else (a :: s0) :: ss := by
  unfold splitOnChar
  rw [h]

theorem splitOnChar_ne_nil (c : Char) (s : Str) : splitOnChar c s ≠ [] := by
  induction s with
  | nil => simp [splitOnChar]
  | cons a r ih =>
    rcases h : splitOnChar c r with _ | ⟨s0, ss⟩
    · exact absurd h ih
    · rw [splitOnChar_cons_eq c a r h]
      split <;> simp

theorem splitOnChar_chars (c : Char) :
    ∀ (s : Str) (seg : Str), seg ∈ splitOnChar c s → ∀ x ∈ seg, x ∈ s := by
  intro s
  induction s with
  | nil =>
    intro seg hseg x hx
    simp [splitOnChar] at hseg
    subst hseg
    exact absurd hx (List.not_mem_nil x)
  | cons a r ih =>
    intro seg hseg x hx
    rcases h : splitOnChar c r with _ | ⟨s0, ss⟩
    · exact absurd h (splitOnChar_ne_nil c r)
    · rw [splitOnChar_cons_eq c a r h] at hseg
      by_cases hac : a = c
      · rw [if_pos hac] at hseg
        rcases List.mem_cons.mp hseg with he | hm
        · subst he; exact absurd hx (List.not_mem_nil x)
        · exact List.mem_cons_of_mem a (ih seg (h ▸ hm) x hx)
      · rw [if_neg hac] at hseg
        rcases List.mem_cons.mp hseg with he | hm
        · subst he
          rcases List.mem_cons.mp hx with hxa | hxm
          · rw [hxa]; exact List.mem_cons_self a r
          · exact List.mem_cons_of_mem a
              (ih s0 (h ▸ List.mem_cons_self s0 ss) x hxm)
        · exact List.mem_cons_of_mem a (ih seg (h ▸ List.mem_cons_of_mem s0 hm) x hx)

theorem joinChar_splitOnChar (c : Char) (s : Str) :
    joinChar c (splitOnChar c s) = s := by
  induction s with
  | nil => rfl
  | cons a r ih =>
    rcases h : splitOnChar c r with _ | ⟨s0, ss⟩
    · exact absurd h (splitOnChar_ne_nil c r)
    · rw [h] at ih
      rw [splitOnChar_cons_eq c a r h]
      by_cases hac : a = c
      · rw [if_pos hac]
        subst hac
        show [] ++ a :: joinChar a (s0 :: ss) = a :: r
        rw [List.nil_append, ih]
      · rw [if_neg hac]
        rcases ss with _ | ⟨s1, ss1⟩
        · show a :: s0 = a :: r
          have h2 : joinChar c [s0] = s0 := rfl
          rw [h2] at ih
          rw [ih]
        · show (a :: s0) ++ c :: joinChar c (s1 :: ss1) = a :: r
          have h2 : joinChar c (s0 :: s1 :: ss1) = s0 ++ c :: joinChar c (s1 :: ss1) := rfl
          rw [h2] at ih
          rw [List.cons_append, ih]

theorem splitOnChar_no_sep {c : Char} : ∀ {s : Str}, c ∉ s → splitOnChar c s = [s]
  | [], _ => rfl
  | a :: r, h => by
    have hr : splitOnChar c r = [r] :=
      splitOnChar_no_sep (fun hm => h (List.mem_cons_of_mem a hm))
    rw [splitOnChar_cons_eq c a r hr]
    have ha : ¬(a = c) := by
      intro he; subst he; exact h (List.mem_cons_self _ r)
    rw [if_neg ha]

theorem splitOnChar_append_sep {c : Char} :
    ∀ {s : Str} (t : Str), c ∉ s → splitOnChar c (s ++ c :: t) = s :: splitOnChar c t
  | [], t, _ => by
    rcases h : splitOnChar c t with _ | ⟨s0, ss⟩
    · exact absurd h (splitOnChar_ne_nil c t)
    · rw [List.nil_append, splitOnChar_cons_eq c c t h, if_pos rfl]
  | a :: r, t, h => by
    have hr : splitOnChar c (r ++ c :: t) = r :: splitOnChar c t :=
      splitOnChar_append_sep t (fun hm => h (List.mem_cons_of_mem a hm))
    rw [List.cons_append, splitOnChar_cons_eq c a (r ++ c :: t) hr]
    have ha : ¬(a = c) := by
      intro he; subst he; exact h (List.mem_cons_self _ r)
    rw [if_neg ha]

theorem joinChar_cons_of_ne_nil (c : Char) (s : Str) {ss : List Str} (h : ss ≠ []) :
    joinChar c (s :: ss) = s ++ c :: joinChar c ss := by
  rcases ss with _ | ⟨s1, ss1⟩
  · exact absurd rfl h
  · rfl

theorem splitOnChar_joinChar (c : Char) :
    ∀ (ds : List Str), ds ≠ [] → (∀ s ∈ ds, c ∉ s) →
      splitOnChar c (joinChar c ds) = ds
  | [], h, _ => absurd rfl h
  | [s], _, hc => by
    show splitOnChar c s = [s]
    exact splitOnChar_no_sep (hc s (List.mem_cons_self s []))
  | s :: s1 :: ss, _, hc => by
    rw [joinChar_cons_of_ne_nil c s (by simp)]
    rw [splitOnChar_append_sep (joinChar c (s1 :: ss)) (hc s (List.mem_cons_self _ _))]
    rw [splitOnChar_joinChar c (s1 :: ss) (by simp)
      (fun x hx => hc x (List.mem_cons_of_mem s hx))]

theorem splitOnChar_concat_sep (c : Char) :
    ∀ (l : Str), splitOnChar c (l ++ [c]) = splitOnChar c l ++ [[]]
  | [] => by
    rw [List.nil_append]
    have h2 : splitOnChar c ([] : Str) = [[]] := rfl
    rw [splitOnChar_cons_eq c c [] h2, if_pos rfl]
    rfl
  | a :: r => by
    have ih := splitOnChar_concat_sep c r
    rcases h : splitOnChar c r with _ | ⟨s0, ss⟩
    · exact absurd h (splitOnChar_ne_nil c r)
    · rw [h] at ih
      rw [List.cons_append, splitOnChar_cons_eq c a (r ++ [c]) ih,
        splitOnChar_cons_eq c a r h]
      by_cases hac : a = c
      · rw [if_pos hac, if_pos hac]
        rfl
      · rw [if_neg hac, if_neg hac]
        rfl

/-- Segment filter used by the middle filter. -/
def neSeg (s : Str) : Bool := !s.isEmpty

theorem midFilterGo_append : ∀ (a b : List Str), b ≠ [] →
    midFilterGo (a ++ b) = a.filter neSeg ++ midFilterGo b
  | [], b, _ => by simp
  | x :: a1, b, hb => by
    have hne : a1 ++ b ≠ [] := by
      intro h
      rcases List.append_eq_nil.mp h with ⟨_, h2⟩
      exact hb h2
    rw [List.cons_append]
    have hstep : midFilterGo (x :: (a1 ++ b))
        = if x = [] then midFilterGo (a1 ++ b) else x :: midFilterGo (a1 ++ b) := by
      rcases h : a1 ++ b with _ | ⟨y, ys⟩
      · exact absurd h hne
      · rfl
    rw [hstep, midFilterGo_append a1 b hb, List.filter_cons]
    by_cases hx : x = []
    · rw [if_pos hx]
      have : neSeg x = false := by rw [hx]; rfl
      rw [this]
      simp
    · rw [if_neg hx]
      have : neSeg x = true := by
        rcases x with _ | ⟨c0, x0⟩
        · exact absurd rfl hx
        · rfl
      rw [this]
      simp

theorem midFilterGo_ne_nil : ∀ (l : List Str), l ≠ [] → midFilterGo l ≠ []
  | [], h => absurd rfl h
  | [a], _ => by simp [midFilterGo]
  | a :: b :: r, _ => by
    show (if a = [] then midFilterGo (b :: r) else a :: midFilterGo (b :: r)) ≠ []
    split
    · exact midFilterGo_ne_nil (b :: r) (by simp)
    · simp

theorem pyResolve_append : ∀ (a b : List Str) (acc : List Str),
    pyResolve acc (a ++ b) = pyResolve (pyResolve acc a) b
  | [], b, acc => rfl
  | s :: a1, b, acc => by
    rw [List.cons_append]
    show (if s = strOf ".." then pyResolve acc.dropLast (a1 ++ b)
      else if s = strOf "." then pyResolve acc (a1 ++ b)
      else pyResolve (acc ++ [s]) (a1 ++ b)) = _
    by_cases h1 : s = strOf ".."
    · rw [if_pos h1]
      rw [pyResolve_append a1 b acc.dropLast]
      congr 1
      show _ = pyResolve acc (s :: a1)
      rw [show pyResolve acc (s :: a1) = pyResolve acc.dropLast a1 by
        show (if s = strOf ".." then _ else _) = _
        rw [if_pos h1]]
    · rw [if_neg h1]
      by_cases h2 : s = strOf "."
      · rw [if_pos h2, pyResolve_append a1 b acc]
        congr 1
        rw [show pyResolve acc (s :: a1) = pyResolve acc a1 by
          show (if s = strOf ".." then _ else _) = _
          rw [if_neg h1, if_pos h2]]
      · rw [if_neg h2, pyResolve_append a1 b (acc ++ [s])]
        congr 1
        rw [show pyResolve acc (s :: a1) = pyResolve (acc ++ [s]) a1 by
          show (if s = strOf ".." then _ else _) = _
          rw [if_neg h1, if_neg h2]]

theorem urljoinModel_plain (base u : Str) (hu : u ≠ [])
    (h1 : '#' ∉ u) (h2 : '?' ∉ u) (h3 : ';' ∉ u) (h4 : ':' ∉ u) :
    urljoinModel base u = resolvePath base u := by
  rcases hL : (splitOnChar '/' u).getLast? with _ | lastSeg
  · rw [List.getLast?_eq_none_iff] at hL
    exact absurd hL (splitOnChar_ne_nil '/' u)
  · have hmem := getLast?_mem_of_eq hL
    have hsemi : ';' ∉ lastSeg := fun hm => h3 (splitOnChar_chars '/' u lastSeg hmem ';' hm)
    have hp2 : joinChar '/' ((splitOnChar '/' u).dropLast ++ [takeUntil ';' lastSeg]) = u := by
      rw [takeUntil_of_not_mem hsemi, List.dropLast_append_getLast? lastSeg hL,
        joinChar_splitOnChar]
    simp only [urljoinModel, hasScheme_no_colon h4, Bool.false_eq_true, if_false,
      takeUntil_of_not_mem h1, afterFirst_of_not_mem h1,
      takeUntil_of_not_mem h2, afterFirst_of_not_mem h2, hL, Option.getD_some,
      afterFirst_of_not_mem hsemi, hp2]
    simp [hu]

/-- Following the spec's words: strip a trailing `.html` suffix. -/
def stripHtmlSpecF (v : Str) : Str :=
  if (strOf ".html").isSuffixOf v then v.take (v.length - 5) else v

/-- Following the spec's words: strip the trailing slash, except for the
root `/`. -/
def stripSlashSpec (v : Str) : Str :=
  if v = strOf "/" then v else rstripSlash v

theorem rstripSlash_eq_self {v : Str} (h : (strOf "/").isSuffixOf v = false) :
    rstripSlash v = v := by
  rcases hv : v.reverse with _ | ⟨c, t⟩
  · have hve : v = [] := by
      rw [← List.reverse_reverse v, hv]; rfl
    rw [hve]; rfl
  · have hc : ¬(c = '/') := by
      intro he
      subst he
      have hs : (strOf "/").isSuffixOf v = true := by
        show ((strOf "/").reverse.isPrefixOf v.reverse) = true
        rw [hv]
        simp [strOf, List.isPrefixOf]
      rw [hs] at h
      exact absurd h (by decide)
    unfold rstripSlash
    rw [hv, List.dropWhile_cons]
    have hd : decide (c = '/') = false := decide_eq_false hc
    rw [hd]
    simp only [Bool.false_eq_true, if_false]
    rw [← hv, List.reverse_reverse]

theorem suffix_slash_len_one {v : Str} (hsuf : (strOf "/").isSuffixOf v = true)
    (hlen : ¬(1 < v.length)) : v = strOf "/" := by
  have hpre : ((strOf "/").reverse.isPrefixOf v.reverse) = true := hsuf
  rcases hv : v.reverse with _ | ⟨c, t⟩
  · rw [hv] at hpre
    exact absurd hpre (by decide)
  · rw [hv] at hpre
    have hc : ('/' == c) = true := by
      have h2 : (('/' == c) && List.isPrefixOf [] t) = true := hpre
      exact (Bool.and_eq_true _ _ ▸ h2).1
    have hc2 : c = '/' := (beq_iff_eq.mp hc).symm
    have hlv : v.length = t.length + 1 := by
      rw [← List.length_reverse, hv, List.length_cons]
    have ht : t = [] := by
      rcases t with _ | _
      · rfl
      · exfalso; apply hlen; rw [hlv]; simp
    rw [← List.reverse_reverse v, hv, ht, hc2]
    rfl

theorem stripSlash_code_eq_spec (v : Str) :
    (if (strOf "/").isSuffixOf v && decide (1 < v.length) then rstripSlash v else v)
      = stripSlashSpec v := by
  unfold stripSlashSpec
  by_cases hroot : v = strOf "/"
  · subst hroot
    rw [if_pos rfl, if_neg]
    decide
  · rw [if_neg hroot]
    by_cases hsuf : (strOf "/").isSuffixOf v = true
    · by_cases hlen : 1 < v.length
      · rw [if_pos]
        rw [hsuf, Bool.true_and]
        exact decide_eq_true hlen
      · exact absurd (suffix_slash_len_one hsuf hlen) hroot
    · have hsf : (strOf "/").isSuffixOf v = false := by
        rcases hx : (strOf "/").isSuffixOf v with _ | _
        · rfl
        · exact absurd hx hsuf
      rw [hsf, Bool.false_and]
      simp only [Bool.false_eq_true, if_false]
      rw [rstripSlash_eq_self hsf]

theorem pyResolve_dot (acc : List Str) (B : List Str) :
    pyResolve acc (strOf "." :: B) = pyResolve acc B := by
  show (if strOf "." = strOf ".." then _
    else if strOf "." = strOf "." then _ else _) = _
  rw [if_neg (by decide), if_pos rfl]

theorem pyResolve_pop (acc : List Str) (B : List Str) :
    pyResolve acc (strOf ".." :: B) = pyResolve acc.dropLast B := by
  show (if strOf ".." = strOf ".." then _ else _) = _
  rw [if_pos rfl]

theorem pyResolve_normal (ds : List Str) :
    ∀ (acc : List Str) (X : List Str),
      (∀ s ∈ ds, ¬(s = strOf "..") ∧ ¬(s = strOf ".")) →
      pyResolve acc (ds ++ X) = pyResolve (acc ++ ds) X := by
  induction ds with
  | nil => intro acc X _; rw [List.nil_append, List.append_nil]
  | cons s ds1 ih =>
    intro acc X hds
    obtain ⟨hs1, hs2⟩ := hds s (List.mem_cons_self s ds1)
    rw [List.cons_append]
    show (if s = strOf ".." then _ else if s = strOf "." then _ else _) = _
    rw [if_neg hs1, if_neg hs2]
    rw [ih (acc ++ [s]) X (fun x hx => hds x (List.mem_cons_of_mem s hx))]
    rw [List.append_assoc]
    rfl

theorem midFilterGo_cons_ne (x : Str) (hx : ¬(x = [])) (s0 : Str) (ss : List Str) :
    midFilterGo (x :: s0 :: ss) = x :: midFilterGo (s0 :: ss) := by
  show (if x = [] then _ else _) = _
  rw [if_neg hx]

theorem midFilterGo_cons_nil (s0 : Str) (ss : List Str) :
    midFilterGo ([] :: s0 :: ss) = midFilterGo (s0 :: ss) := by
  show (if ([] : Str) = [] then _ else _) = _
  rw [if_pos rfl]

theorem resolvePath_dot (base u : Str)
    (hb : (splitOnChar '/' base).getLast? = some []) :
    resolvePath base ('.' :: '/' :: u) = resolvePath base u := by
  rcases hsu : splitOnChar '/' u with _ | ⟨s0, ss⟩
  · exact absurd hsu (splitOnChar_ne_nil '/' u)
  rcases hbp : splitOnChar '/' base with _ | ⟨b0, brest⟩
  · exact absurd hbp (splitOnChar_ne_nil '/' base)
  have hsplit : splitOnChar '/' ('.' :: '/' :: u) = strOf "." :: s0 :: ss := by
    have h1 : splitOnChar '/' ('/' :: u) = [] :: s0 :: ss := by
      rw [splitOnChar_cons_eq '/' '/' u hsu, if_pos rfl]
    rw [splitOnChar_cons_eq '/' '.' ('/' :: u) h1, if_neg (by decide)]
    rfl
  rw [hbp] at hb
  have hgne : midFilterGo (s0 :: ss) ≠ [] := midFilterGo_ne_nil (s0 :: ss) (by simp)
  simp only [resolvePath, hsplit, hsu, hbp, if_pos hb]
  have hgoL : midFilter ((b0 :: brest) ++ (strOf "." :: s0 :: ss))
      = (b0 :: (brest.filter neSeg ++ [strOf "."])) ++ midFilterGo (s0 :: ss) := by
    show b0 :: midFilterGo (brest ++ (strOf "." :: s0 :: ss)) = _
    rw [midFilterGo_append brest _ (by simp),
      midFilterGo_cons_ne (strOf ".") (by decide) s0 ss]
    simp [List.append_assoc]
  have hgoR : midFilter ((b0 :: brest) ++ (s0 :: ss))
      = (b0 :: brest.filter neSeg) ++ midFilterGo (s0 :: ss) := by
    show b0 :: midFilterGo (brest ++ (s0 :: ss)) = _
    rw [midFilterGo_append brest _ (by simp)]
    rfl
  rw [hgoL, hgoR]
  have hlast : ((b0 :: (brest.filter neSeg ++ [strOf "."])) ++ midFilterGo (s0 :: ss)).getLast?
      = ((b0 :: brest.filter neSeg) ++ midFilterGo (s0 :: ss)).getLast? := by
    rw [List.getLast?_append_of_ne_nil _ hgne, List.getLast?_append_of_ne_nil _ hgne]
  have hpy : pyResolve [] ((b0 :: (brest.filter neSeg ++ [strOf "."])) ++ midFilterGo (s0 :: ss))
      = pyResolve [] ((b0 :: brest.filter neSeg) ++ midFilterGo (s0 :: ss)) := by
    rw [pyResolve_append, pyResolve_append]
    congr 1
    have hx : (b0 :: (brest.filter neSeg ++ [strOf "."]))
        = (b0 :: brest.filter neSeg) ++ [strOf "."] := by simp
    rw [hx, pyResolve_append]
    show pyResolve (pyResolve [] (b0 :: brest.filter neSeg)) (strOf "." :: []) = _
    rw [pyResolve_dot]
    rfl
  rw [hlast, hpy]

theorem pyResolve_push (acc : List Str) (s : Str)
    (h1 : ¬(s = strOf "..")) (h2 : ¬(s = strOf ".")) (B : List Str) :
    pyResolve acc (s :: B) = pyResolve (acc ++ [s]) B := by
  show (if s = strOf ".." then _ else if s = strOf "." then _ else _) = _
  rw [if_neg h1, if_neg h2]

/-- The `base_url_path` of a page living in the nested directory chain `ds`
(root when `ds = []`): `'/' ++ d1 ++ '/' ++ ... ++ dn ++ '/'`. -/
def dirsBase (ds : List Str) : Str :=
  if ds = [] then strOf "/" else '/' :: (joinChar '/' ds ++ ['/'])

theorem dirsBase_split (ds : List Str)
    (hds : ∀ s ∈ ds, ¬(s = []) ∧ '/' ∉ s) :
    splitOnChar '/' (dirsBase ds) = ([] :: ds) ++ [[]] := by
  rcases ds with _ | ⟨d0, drest⟩
  · decide
  · show splitOnChar '/' ('/' :: (joinChar '/' (d0 :: drest) ++ ['/'])) = _
    have hj : splitOnChar '/' (joinChar '/' (d0 :: drest) ++ ['/'])
        = (d0 :: drest) ++ [[]] := by
      rw [splitOnChar_concat_sep,
        splitOnChar_joinChar '/' (d0 :: drest) (by simp)
          (fun s hs => (hds s hs).2)]
    rw [splitOnChar_cons_eq '/' '/' _ hj, if_pos rfl]
    rfl

theorem midFilterGo_dirs (ds : List Str) (x0 : Str) (xs : List Str)
    (hds : ∀ s ∈ ds, neSeg s = true) :
    midFilterGo ((ds ++ [[]]) ++ (x0 :: xs)) = ds ++ midFilterGo (x0 :: xs) := by
  rw [List.append_assoc, midFilterGo_append ds _ (by simp)]
  rw [List.filter_eq_self.mpr hds]
  rw [List.singleton_append, midFilterGo_cons_nil]

theorem resolvePath_dotdot (ds : List Str) (u : Str)
    (hne : ds ≠ [])
    (hval : ∀ s ∈ ds, ¬(s = []) ∧ ¬(s = strOf ".") ∧ ¬(s = strOf "..") ∧ '/' ∉ s) :
    resolvePath (dirsBase ds) ('.' :: '.' :: '/' :: u)
      = resolvePath (dirsBase ds.dropLast) u := by
  rcases hsu : splitOnChar '/' u with _ | ⟨s0, ss⟩
  · exact absurd hsu (splitOnChar_ne_nil '/' u)
  have hsplit : splitOnChar '/' ('.' :: '.' :: '/' :: u) = strOf ".." :: s0 :: ss := by
    have h1 : splitOnChar '/' ('/' :: u) = [] :: s0 :: ss := by
      rw [splitOnChar_cons_eq '/' '/' u hsu, if_pos rfl]
    have h2 : splitOnChar '/' ('.' :: '/' :: u) = strOf "." :: s0 :: ss := by
      rw [splitOnChar_cons_eq '/' '.' ('/' :: u) h1, if_neg (by decide)]
      rfl
    rw [splitOnChar_cons_eq '/' '.' ('.' :: '/' :: u) h2, if_neg (by decide)]
    rfl
  have hbsplit : splitOnChar '/' (dirsBase ds) = ([] :: ds) ++ [[]] :=
    dirsBase_split ds (fun s hs => ⟨(hval s hs).1, (hval s hs).2.2.2⟩)
  have hbsplit2 : splitOnChar '/' (dirsBase ds.dropLast) = ([] :: ds.dropLast) ++ [[]] :=
    dirsBase_split ds.dropLast (fun s hs =>
      ⟨(hval s (List.mem_of_mem_dropLast hs)).1,
       (hval s (List.mem_of_mem_dropLast hs)).2.2.2⟩)
  have hget1 : (([] :: ds) ++ [[]]).getLast? = some [] := List.getLast?_concat _
  have hget2 : (([] :: ds.dropLast) ++ [[]]).getLast? = some [] := List.getLast?_concat _
  have hneSeg : ∀ s ∈ ds, neSeg s = true := by
    intro s hs
    have h := (hval s hs).1
    rcases s with _ | ⟨a, r⟩
    · exact absurd rfl h
    · rfl
  have hgne : midFilterGo (s0 :: ss) ≠ [] := midFilterGo_ne_nil (s0 :: ss) (by simp)
  simp only [resolvePath, hsplit, hsu, hbsplit, hbsplit2, if_pos hget1, if_pos hget2]
  have hgoL : midFilter ((([] :: ds) ++ [[]]) ++ (strOf ".." :: s0 :: ss))
      = ([] :: (ds ++ [strOf ".."])) ++ midFilterGo (s0 :: ss) := by
    show [] :: midFilterGo ((ds ++ [[]]) ++ (strOf ".." :: s0 :: ss)) = _
    rw [midFilterGo_dirs ds _ _ hneSeg,
      midFilterGo_cons_ne (strOf "..") (by decide) s0 ss]
    simp [List.append_assoc]
  have hgoR : midFilter ((([] :: ds.dropLast) ++ [[]]) ++ (s0 :: ss))
      = ([] :: ds.dropLast) ++ midFilterGo (s0 :: ss) := by
    show [] :: midFilterGo ((ds.dropLast ++ [[]]) ++ (s0 :: ss)) = _
    rw [midFilterGo_dirs ds.dropLast s0 ss (fun s hs =>
      hneSeg s (List.mem_of_mem_dropLast hs))]
    rfl
  rw [hgoL, hgoR]
  have hlast : (([] :: (ds ++ [strOf ".."])) ++ midFilterGo (s0 :: ss)).getLast?
      = (([] :: ds.dropLast) ++ midFilterGo (s0 :: ss)).getLast? := by
    rw [List.getLast?_append_of_ne_nil _ hgne, List.getLast?_append_of_ne_nil _ hgne]
  have hnorm : ∀ s ∈ ds, ¬(s = strOf "..") ∧ ¬(s = strOf ".") := by
    intro s hs
    exact ⟨(hval s hs).2.2.1, (hval s hs).2.1⟩
  have hpy : pyResolve [] (([] :: (ds ++ [strOf ".."])) ++ midFilterGo (s0 :: ss))
      = pyResolve [] (([] :: ds.dropLast) ++ midFilterGo (s0 :: ss)) := by
    rw [pyResolve_append, pyResolve_append]
    congr 1
    rw [pyResolve_push [] [] (by decide) (by decide),
      pyResolve_push [] [] (by decide) (by decide)]
    have hx : ds ++ [strOf ".."] = ds ++ (strOf ".." :: []) := rfl
    rw [hx, pyResolve_normal ds ([] ++ [[]]) (strOf ".." :: []) hnorm]
    have hR : pyResolve ([] ++ [[]]) ds.dropLast = ([] ++ [[]]) ++ ds.dropLast := by
      have h := pyResolve_normal ds.dropLast ([] ++ [[]]) []
        (fun s hs => hnorm s (List.mem_of_mem_dropLast hs))
      rw [List.append_nil] at h
      exact h
    rw [hR, pyResolve_pop]
    rcases ds with _ | ⟨d0, drest⟩
    · exact absurd rfl hne
    · rfl
  rw [hlast, hpy]

theorem cleanLink_decomposed (u p : Str) (hu : u ≠ [])
    (hsp : specialPres.any (fun w => w.isPrefixOf u) = false)
    (hroot : (strOf "/").isPrefixOf u = false)
    (h1 : '#' ∉ u) (h2 : '?' ∉ u) (h3 : ';' ∉ u) (h4 : ':' ∉ u) :
    cleanLink u p = stripSlashSpec (stripHtmlSpecF (resolvePath (baseUrlPath p) u)) := by
  simp only [cleanLink, hsp, hroot, Bool.false_eq_true, if_false, if_neg hu]
  rw [urljoinModel_plain (baseUrlPath p) u hu h1 h2 h3 h4]
  have hfold : (if (strOf ".html").isSuffixOf (resolvePath (baseUrlPath p) u) then
        (resolvePath (baseUrlPath p) u).take ((resolvePath (baseUrlPath p) u).length - 5)
      else resolvePath (baseUrlPath p) u)
      = stripHtmlSpecF (resolvePath (baseUrlPath p) u) := rfl
  rw [hfold, stripSlash_code_eq_spec]

/-- C3: for a non-empty href without fragment, query, parameter or colon
that is neither root-relative nor special-prefixed, `clean_link` resolves
it against the referring document's directory (`urljoin` collapses to the
path resolver) and then strips a trailing `.html` and a trailing slash
with the root `/` excepted, exactly as the spec words it; the resolver
obeys the standard `./` law against any directory base, and obeys the
standard `../` law whenever at least one directory remains to pop; and
the spec's scenario holds: `../about.html` from `blog/post.html`
canonicalizes to `/about`.  (The resolver is NOT standard on excess
`..`: see the counterexample, where `../x` from a root-level page yields
the relative string `x` instead of `/x`.) -/
theorem cleanLink_canon_semantics :
    (∀ (u p : Str), u ≠ [] →
      specialPres.any (fun w => w.isPrefixOf u) = false →
      (strOf "/").isPrefixOf u = false →
      '#' ∉ u → '?' ∉ u → ';' ∉ u → ':' ∉ u →
      cleanLink u p = stripSlashSpec (stripHtmlSpecF (resolvePath (baseUrlPath p) u)))
    ∧ (∀ (base u : Str), (splitOnChar '/' base).getLast? = some [] →
      resolvePath base ('.' :: '/' :: u) = resolvePath base u)
    ∧ (∀ (ds : List Str) (u : Str), ds ≠ [] →
      (∀ s ∈ ds, ¬(s = []) ∧ ¬(s = strOf ".") ∧ ¬(s = strOf "..") ∧ '/' ∉ s) →
      resolvePath (dirsBase ds) ('.' :: '.' :: '/' :: u)
        = resolvePath (dirsBase ds.dropLast) u)
    ∧ cleanLinkS "../about.html" "blog/post.html" = "/about" := by
  refine ⟨cleanLink_decomposed, resolvePath_dot, resolvePath_dotdot, ?_⟩
  decide

/-- Witness applying each universally quantified conjunct of
`cleanLink_canon_semantics` at concrete inputs. -/
theorem cleanLink_canon_semantics_witness :
    cleanLink (strOf "../about.html") (strOf "blog/post.html")
      = stripSlashSpec (stripHtmlSpecF
          (resolvePath (baseUrlPath (strOf "blog/post.html")) (strOf "../about.html")))
    ∧ resolvePath (strOf "/blog/") ('.' :: '/' :: strOf "x")
      = resolvePath (strOf "/blog/") (strOf "x")
    ∧ resolvePath (dirsBase [strOf "blog"]) ('.' :: '.' :: '/' :: strOf "x")
      = resolvePath (dirsBase ([strOf "blog"]).dropLast) (strOf "x") :=
  ⟨cleanLink_canon_semantics.1 (strOf "../about.html") (strOf "blog/post.html")
      (by decide) (by decide) (by decide) (by decide) (by decide) (by decide) (by decide),
   cleanLink_canon_semantics.2.1 (strOf "/blog/") (strOf "x") (by decide),
   cleanLink_canon_semantics.2.2.1 [strOf "blog"] (strOf "x") (by decide) (by decide)⟩

/-- The resolver is not standard: `../x` from the root-level page
`post.html` escapes the root and `clean_link` returns the relative
string `x`, not the root-relative `/x` that standard `../` semantics
(and the spec) would give. -/
theorem cleanLink_escape_counterexample :
    cleanLinkS "../x" "post.html" = "x" ∧ ¬(("x" : String) = "/x") := by
  constructor
  · decide
  · decide

/-! ### Claim C8: sitemap uniqueness -/

theorem insBy_perm (ok : α → α → Bool) (x : α) :
    ∀ (l : List α), (insBy ok x l).Perm (x :: l)
  | [] => List.Perm.refl _
  | y :: ys => by
    show (if ok x y then x :: y :: ys else y :: insBy ok x ys).Perm _
    by_cases h : ok x y = true
    · rw [if_pos h]
    · rw [if_neg h]
      exact ((insBy_perm ok x ys).cons y).trans (List.Perm.swap x y ys)

theorem sortBy_perm (ok : α → α → Bool) :
    ∀ (l : List α), (sortBy ok l).Perm l
  | [] => List.Perm.refl _
  | x :: xs => (insBy_perm ok x (sortBy ok xs)).trans ((sortBy_perm ok xs).cons x)

theorem orderDocs_perm (docs : List BDoc) : (orderDocs docs).Perm docs := by
  unfold orderDocs
  exact ((sortBy_perm _ _).append_right _).trans (List.filter_append_perm _ docs)

theorem step3Go_cons (d : BDoc) (ds : List BDoc) :
    step3Go (d :: ds) = match processPageB d with
      | Except.error _ => ([], true)
      | Except.ok (_, e) => (e :: (step3Go ds).1, (step3Go ds).2) := rfl

theorem processPageB_ok (d : BDoc) (cs : List Str) (e : SEntry)
    (h : processPageB d = Except.ok (cs, e)) :
    e = entryFor (isBlogArticle d) d.date d.relSegs := by
  revert h
  simp only [processPageB]
  split
  · intro h
    exact absurd h (by simp)
  · intro h
    injection h with h2
    injection h2 with h3 h4
    exact h4.symm

theorem step3Go_no_abort (ds : List BDoc) :
    (step3Go ds).2 = false →
    (step3Go ds).1 = ds.map (fun d => entryFor (isBlogArticle d) d.date d.relSegs) := by
  induction ds with
  | nil => intro _; rfl
  | cons d ds ih =>
    rw [step3Go_cons]
    rcases hp : processPageB d with u | ⟨cs, e⟩
    · intro h
      exact Bool.noConfusion h
    · intro h
      show e :: (step3Go ds).1 = _
      rw [ih h, processPageB_ok d cs e hp]
      rfl

/-- A plain path segment: non-empty and free of `/`. -/
def validSeg (s : Str) : Bool := !s.isEmpty && s.all (fun c => !decide (c = '/'))

/-- A well-formed page path relative to the project root: plain segments
and a final file name of the form `name.html` where `name` is non-empty
and does not start with a dot. -/
def validRel (segs : List Str) : Bool :=
  segs.all validSeg &&
    (match segs.getLast? with
     | none => false
     | some nm => (strOf ".html").isSuffixOf nm && decide (6 ≤ nm.length)
         && !(nm.head? == some '.'))

theorem validSeg_unpack (s : Str) (h : validSeg s = true) : ¬(s = []) ∧ '/' ∉ s := by
  rw [validSeg, Bool.and_eq_true] at h
  constructor
  · intro he
    rw [he] at h
    exact absurd h.1 (by decide)
  · intro hm
    have h2 := List.all_eq_true.mp h.2 '/' hm
    simp at h2

theorem validRel_unpack (segs : List Str) (h : validRel segs = true) :
    ∃ ds c t, segs = ds ++ [(c :: t) ++ strOf ".html"] ∧
      (∀ d ∈ ds, ¬(d = []) ∧ '/' ∉ d) ∧ ¬(c = '.') ∧ '/' ∉ (c :: t) := by
  rw [validRel, Bool.and_eq_true] at h
  obtain ⟨hall, hlastcond⟩ := h
  rcases hL : segs.getLast? with _ | nm
  · rw [hL] at hlastcond
    exact Bool.noConfusion hlastcond
  · rw [hL] at hlastcond
    rw [Bool.and_eq_true, Bool.and_eq_true] at hlastcond
    obtain ⟨⟨hsuf, hlen⟩, hhead⟩ := hlastcond
    have hlen2 : 6 ≤ nm.length := of_decide_eq_true hlen
    have hsx : (strOf ".html") <:+ nm := by
      rwa [List.isSuffixOf_iff_suffix] at hsuf
    obtain ⟨pre, hpre⟩ := hsx
    rcases pre with _ | ⟨c, t⟩
    · rw [List.nil_append] at hpre
      rw [← hpre] at hlen2
      exact absurd hlen2 (by decide)
    · have hnmeq : nm = (c :: t) ++ strOf ".html" := hpre.symm
      have hceq : ¬(c = '.') := by
        have hh : nm.head? = some c := by rw [hnmeq]; rfl
        intro hc
        rw [hc] at hh
        rw [hh] at hhead
        exact absurd hhead (by decide)
      have hnmSeg : validSeg nm = true :=
        List.all_eq_true.mp hall nm (getLast?_mem_of_eq hL)
      have hslash : '/' ∉ nm := (validSeg_unpack nm hnmSeg).2
      have hslash2 : '/' ∉ (c :: t) := fun hm => hslash (by
        rw [hnmeq]
        exact List.mem_append_left _ hm)
      refine ⟨segs.dropLast, c, t, ?_, ?_, hceq, hslash2⟩
      · rw [← hnmeq]
        exact (List.dropLast_append_getLast? nm hL).symm
      · intro d hd
        exact validSeg_unpack d (List.all_eq_true.mp hall d (List.mem_of_mem_dropLast hd))

theorem lastIdxOf_dot_html : ∀ (s : Str),
    lastIdxOf '.' (s ++ strOf ".html") = some s.length
  | [] => by decide
  | a :: t => by
    show (match lastIdxOf '.' (t ++ strOf ".html") with
      | some k => some (k + 1)
      | none => if a = '.' then some 0 else none) = _
    rw [lastIdxOf_dot_html t]
    rfl

theorem splitextStem_html (c : Char) (t : Str) (hc : ¬(c = '.')) :
    splitextStem ((c :: t) ++ strOf ".html") = c :: t := by
  have hlead : (((c :: t) ++ strOf ".html").takeWhile (fun x => x = '.')).length = 0 := by
    rw [List.cons_append, List.takeWhile_cons_of_neg (by simpa using hc)]
    rfl
  simp only [splitextStem, hlead, List.drop_zero, lastIdxOf_dot_html (c :: t)]
  rw [Nat.zero_add]
  exact List.take_left (c :: t) (strOf ".html")

theorem joinChar_concat_nil (c : Char) : ∀ (ds : List Str), ds ≠ [] →
    joinChar c (ds ++ [[]]) = joinChar c ds ++ [c]
  | [], h => absurd rfl h
  | [d], _ => by
    show joinChar c (d :: [[]]) = d ++ [c]
    rw [joinChar_cons_of_ne_nil c d (by simp)]
    rfl
  | d :: d1 :: rest, _ => by
    rw [List.cons_append, joinChar_cons_of_ne_nil c d (by simp),
      joinChar_cons_of_ne_nil c d (by simp),
      joinChar_concat_nil c (d1 :: rest) (by simp)]
    simp

theorem pageUrlSegs_flat (ds : List Str) (nm : Str) :
    pageUrlSegs (ds ++ [nm]) =
      '/' :: joinChar '/'
        (if nm = strOf "index.html" then ds ++ [[]] else ds ++ [splitextStem nm]) := by
  simp only [pageUrlSegs, List.getLast?_concat, List.dropLast_concat]
  by_cases hi : nm = strOf "index.html"
  · rw [if_pos hi, if_pos hi]
    by_cases hd : ds = []
    · rw [hd, if_pos (by simp)]
      rfl
    · rw [if_neg (fun hlen => hd (List.eq_nil_of_length_eq_zero (by simpa using hlen)))]
      rw [joinChar_concat_nil '/' ds hd]
  · rw [if_neg hi, if_neg hi]

theorem concat_inj_of_eq {l1 l2 : List Str} {a b : Str}
    (h : l1 ++ [a] = l2 ++ [b]) : l1 = l2 ∧ a = b := by
  constructor
  · have hd := congrArg List.dropLast h
    rwa [List.dropLast_concat, List.dropLast_concat] at hd
  · have hg := congrArg List.getLast? h
    rw [List.getLast?_concat, List.getLast?_concat] at hg
    exact Option.some.inj hg

theorem pageUrlSegs_inj (A B : List Str)
    (hA : validRel A = true) (hB : validRel B = true)
    (h : pageUrlSegs A = pageUrlSegs B) : A = B := by
  obtain ⟨dsA, cA, tA, hAeq, hdsA, hcA, hsA⟩ := validRel_unpack A hA
  obtain ⟨dsB, cB, tB, hBeq, hdsB, hcB, hsB⟩ := validRel_unpack B hB
  rw [hAeq, hBeq] at h ⊢
  rw [pageUrlSegs_flat, pageUrlSegs_flat] at h
  rw [splitextStem_html cA tA hcA, splitextStem_html cB tB hcB] at h
  by_cases hiA : ((cA :: tA) ++ strOf ".html") = strOf "index.html" <;>
    by_cases hiB : ((cB :: tB) ++ strOf ".html") = strOf "index.html"
  · rw [if_pos hiA, if_pos hiB] at h
    injection h with h0 h1
    have h2 : dsA ++ [[]] = dsB ++ [[]] := by
      have := congrArg (splitOnChar '/') h1
      rwa [splitOnChar_joinChar '/' (dsA ++ [[]]) (by simp)
          (fun s hs => by
            rcases List.mem_append.mp hs with hx | hx
            · exact (hdsA s hx).2
            · rw [List.mem_singleton.mp hx]; simp),
        splitOnChar_joinChar '/' (dsB ++ [[]]) (by simp)
          (fun s hs => by
            rcases List.mem_append.mp hs with hx | hx
            · exact (hdsB s hx).2
            · rw [List.mem_singleton.mp hx]; simp)] at this
    rw [(concat_inj_of_eq h2).1, hiA, hiB]
  · rw [if_pos hiA, if_neg hiB] at h
    injection h with h0 h1
    have h2 : dsA ++ [[]] = dsB ++ [cB :: tB] := by
      have := congrArg (splitOnChar '/') h1
      rwa [splitOnChar_joinChar '/' (dsA ++ [[]]) (by simp)
          (fun s hs => by
            rcases List.mem_append.mp hs with hx | hx
            · exact (hdsA s hx).2
            · rw [List.mem_singleton.mp hx]; simp),
        splitOnChar_joinChar '/' (dsB ++ [cB :: tB]) (by simp)
          (fun s hs => by
            rcases List.mem_append.mp hs with hx | hx
            · exact (hdsB s hx).2
            · rw [List.mem_singleton.mp hx]; exact hsB)] at this
    exact absurd (concat_inj_of_eq h2).2 (by simp)
  · rw [if_neg hiA, if_pos hiB] at h
    injection h with h0 h1
    have h2 : dsA ++ [cA :: tA] = dsB ++ [[]] := by
      have := congrArg (splitOnChar '/') h1
      rwa [splitOnChar_joinChar '/' (dsA ++ [cA :: tA]) (by simp)
          (fun s hs => by
            rcases List.mem_append.mp hs with hx | hx
            · exact (hdsA s hx).2
            · rw [List.mem_singleton.mp hx]; exact hsA),
        splitOnChar_joinChar '/' (dsB ++ [[]]) (by simp)
          (fun s hs => by
            rcases List.mem_append.mp hs with hx | hx
            · exact (hdsB s hx).2
            · rw [List.mem_singleton.mp hx]; simp)] at this
    exact absurd (concat_inj_of_eq h2).2 (by simp)
  · rw [if_neg hiA, if_neg hiB] at h
    injection h with h0 h1
    have h2 : dsA ++ [cA :: tA] = dsB ++ [cB :: tB] := by
      have := congrArg (splitOnChar '/') h1
      rwa [splitOnChar_joinChar '/' (dsA ++ [cA :: tA]) (by simp)
          (fun s hs => by
            rcases List.mem_append.mp hs with hx | hx
            · exact (hdsA s hx).2
            · rw [List.mem_singleton.mp hx]; exact hsA),
        splitOnChar_joinChar '/' (dsB ++ [cB :: tB]) (by simp)
          (fun s hs => by
            rcases List.mem_append.mp hs with hx | hx
            · exact (hdsB s hx).2
            · rw [List.mem_singleton.mp hx]; exact hsB)] at this
    obtain ⟨hds, hstem⟩ := concat_inj_of_eq h2
    rw [hds, hstem]

theorem step5_nodup (es : List SEntry)
    (h : (es.map SEntry.loc).Nodup) :
    ((step5Entries es).map SEntry.loc).Nodup := by
  have hperm : ((sortBy (fun a b => decide (sortKeyOf a ≤ sortKeyOf b)) es).map
        SEntry.loc).Perm (es.map SEntry.loc) :=
    (sortBy_perm (fun a b => decide (sortKeyOf a ≤ sortKeyOf b)) es).map SEntry.loc
  have hnd := hperm.nodup_iff.mpr h
  have hsub0 : ((sortBy (fun a b => decide (sortKeyOf a ≤ sortKeyOf b)) es).filter
        (fun e => !excludedLoc e.loc)).Sublist
      (sortBy (fun a b => decide (sortKeyOf a ≤ sortKeyOf b)) es) :=
    List.filter_sublist _
  exact List.Nodup.sublist (hsub0.map SEntry.loc) hnd

/-- C8 (amended): for distinct well-formed input pages (non-empty
slash-free path segments, file names of the shape `name.html` with a
non-dot-led `name`), the page URL computed by `process_page` is
injective, so when the build pass completes without aborting no two
serialized sitemap entries share a `loc`.  But the sitemap does NOT
contain one entry per emitted page: `step_5` drops every entry whose
`loc` contains `404`, `google`, `MasterTool` or `SEO_Dashboard`, so the
emitted `404.html` page has no sitemap entry (see the counterexample). -/
theorem buildSitemap_unique :
    (∀ (A B : List Str), validRel A = true → validRel B = true →
      pageUrlSegs A = pageUrlSegs B → A = B)
    ∧ (∀ (docs : List BDoc), (step3Go (orderDocs docs)).2 = false →
      (∀ d ∈ docs, validRel d.relSegs = true) →
      (docs.map (fun d => d.relSegs)).Nodup →
      ((buildSitemap docs).map SEntry.loc).Nodup) := by
  refine ⟨pageUrlSegs_inj, ?_⟩
  intro docs habort hval hnd
  unfold buildSitemap
  rw [step3Go_no_abort (orderDocs docs) habort]
  apply step5_nodup
  rw [List.map_map]
  have hcomp : (SEntry.loc ∘ fun d => entryFor (isBlogArticle d) d.date d.relSegs)
      = fun d => domainStr ++ pageUrlSegs d.relSegs := rfl
  rw [hcomp]
  have hperm : ((orderDocs docs).map (fun d => domainStr ++ pageUrlSegs d.relSegs)).Perm
      (docs.map (fun d => domainStr ++ pageUrlSegs d.relSegs)) :=
    (orderDocs_perm docs).map _
  rw [hperm.nodup_iff]
  have hmm : docs.map (fun d => domainStr ++ pageUrlSegs d.relSegs)
      = (docs.map (fun d => d.relSegs)).map (fun rs => domainStr ++ pageUrlSegs rs) := by
    rw [List.map_map]
    rfl
  rw [hmm]
  refine List.Nodup.map_on ?_ hnd
  intro x hx y hy hxy
  obtain ⟨dx, hdx, hdx2⟩ := List.mem_map.mp hx
  obtain ⟨dy, hdy, hdy2⟩ := List.mem_map.mp hy
  have hx2 : validRel x = true := by rw [← hdx2]; exact hval dx hdx
  have hy2 : validRel y = true := by rw [← hdy2]; exact hval dy hdy
  exact pageUrlSegs_inj x y hx2 hy2 (List.append_cancel_left hxy)

/-- Witness applying both conjuncts of `buildSitemap_unique` at a
two-page site. -/
theorem buildSitemap_unique_witness :
    ([strOf "about.html"] : List Str) = [strOf "about.html"]
    ∧ ((buildSitemap
        [⟨[strOf "index.html"], strOf "2026-01-01", [], []⟩,
         ⟨[strOf "about.html"], strOf "2026-01-01", [], []⟩]).map SEntry.loc).Nodup :=
  ⟨buildSitemap_unique.1 [strOf "about.html"] [strOf "about.html"]
      (by decide) (by decide) (by decide),
   buildSitemap_unique.2
      [⟨[strOf "index.html"], strOf "2026-01-01", [], []⟩,
       ⟨[strOf "about.html"], strOf "2026-01-01", [], []⟩]
      (by decide) (by decide) (by decide)⟩

/-- C8 counterexample: over the distinct input files `404.html` and
`index.html` the build emits two pages (step 3 collects two entries),
but the serialized sitemap has a single entry: the `404.html` entry is
dropped by the exclusion filter of `step_5_generate_sitemap`, so the
sitemap does not contain exactly one entry per emitted page. -/
theorem buildSitemap_drop_counterexample :
    (step3Go (orderDocs
      [⟨[strOf "404.html"], strOf "2026-01-01", [], []⟩,
       ⟨[strOf "index.html"], strOf "2026-01-01", [], []⟩])).1.length = 2
    ∧ (buildSitemap
      [⟨[strOf "404.html"], strOf "2026-01-01", [], []⟩,
       ⟨[strOf "index.html"], strOf "2026-01-01", [], []⟩]).length = 1 := by
  constructor
  · decide
  · decide
